import Mathlib

/-!
# Verification of the MTR pathfinder core

A shallow embedding of the pathfinding core of `mtr_pathfinder.py` and
`mtr_pathfinder_lib/mtr_pathfinder_v4.py`, together with proofs about it.

Conventions used throughout:

* Python `int` values are embedded as `Int` (or `Nat` for station indices),
  Python `float` values as `Rat` (exact arithmetic; the floating-point
  rounding of CPython is not modelled).
* The two bookkeeping arrays of the Connection Scan Algorithm are
  `array('Q')` (unsigned 64-bit) values in the source; they are embedded as
  Lean lists, with out-of-range access modelled by an `Except` error
  (CPython raises `IndexError`).  Overflow of stored values beyond the
  64-bit range is not modelled; the theorems below restrict times to the
  representable range where it matters.
* Wall-clock timeouts (`TimeoutError` in `CSA.main_loop`) are real-time
  behaviour and are not modelled.
* Python's builtin `round` (round-half-to-even) is embedded as `pyRound`,
  `math.gcd` as `Int.gcd`, and floor division `//` as `Int.fdiv`.
-/

/-- Errors raised by the embedded Python code. `nonTermination` stands for a
run of a `while` loop that never exits (modelled with fuel). -/
inductive PyErr where
  | indexError
  | zeroDivision
  | keyError
  | typeError
  | unpicklingError
  | valueError
  | nonTermination
deriving DecidableEq, Repr

/-- `MAX_INT = 2 ** 64 - 1` from mtr_pathfinder_v4.py, as an `Int`
(the sentinel value stored in `earliest_arrival`). -/
def MAX_INT : Int := 2 ^ 64 - 1

/-- `MAX_INT` as a `Nat` (the sentinel value stored in `in_connection`). -/
def MAX_INT_N : Nat := 2 ^ 64 - 1

/-- Read `l[i]`, raising `IndexError` when `i` is out of range. -/
def listGetE {α : Type} (l : List α) (i : Nat) : Except PyErr α :=
  if h : i < l.length then .ok l[i] else .error .indexError

/-- Write `l[i] = a`, raising `IndexError` when `i` is out of range. -/
def listSetE {α : Type} (l : List α) (i : Nat) (a : α) : Except PyErr (List α) :=
  if i < l.length then .ok (l.set i a) else .error .indexError

/-- The `detail` payload `c[4]` of a connection tuple: route id (or a walk
label), the terminus station id (`''` for walks) and an optional platform. -/
structure RDetail where
  name : String
  terminus : String
  platform : Option String
deriving DecidableEq, Repr

/-- A connection tuple as consumed by the CSA: `c[0]` departure station
number, `c[1]` arrival station number, `c[2]` departure time, `c[3]` arrival
time, `c[4]` detail, and the optional trip number appended by `load_tt` for
ride entries (walk entries stay 5-tuples, modelled by `trip = none`). -/
structure Conn where
  dep : Nat
  arr : Nat
  depTime : Int
  arrTime : Int
  detail : RDetail
  trip : Option Nat
deriving DecidableEq, Repr

/-- `CSA.main_loop`, embedded with explicit state.  `ea` is
`self.earliest_arrival`, `ic` is `self.in_connection`, `i` the enumeration
index and `earliest` the local early-exit bound.  Array accesses are
bounds-checked (CPython raises `IndexError`); note that `c[3] <
self.earliest_arrival[c[1]]` is only evaluated when the first conjunct
holds, mirroring Python's short-circuit `and`. -/
def mainLoopE (arrival : Nat) : List Conn → Nat → List Int → List Nat → Int →
    Except PyErr (List Int × List Nat)
  | [], _, ea, ic, _ => .ok (ea, ic)
  | c :: rest, i, ea, ic, earliest => do
    let eaDep ← listGetE ea c.dep
    if eaDep ≤ c.depTime then
      let eaArr ← listGetE ea c.arr
      if c.arrTime < eaArr then
        let ea' ← listSetE ea c.arr c.arrTime
        let ic' ← listSetE ic c.arr i
        mainLoopE arrival rest (i + 1) ea' ic'
          (if c.arr = arrival then min earliest c.arrTime else earliest)
      else if earliest ≤ c.depTime then .ok (ea, ic)
      else mainLoopE arrival rest (i + 1) ea ic earliest
    else if earliest ≤ c.depTime then .ok (ea, ic)
    else mainLoopE arrival rest (i + 1) ea ic earliest

/-- Pure functional counterpart of `mainLoopE`, with the two arrays as total
functions (`Nat → Int` and `Nat → Nat`).  It agrees with `mainLoopE` when
every station index of the list is within range; all invariant reasoning is
done on this version. -/
def mainLoopF (arrival : Nat) : List Conn → Nat → (Nat → Int) → (Nat → Nat) → Int →
    ((Nat → Int) × (Nat → Nat) × Int)
  | [], _, ea, ic, earliest => (ea, ic, earliest)
  | c :: rest, i, ea, ic, earliest =>
    if ea c.dep ≤ c.depTime ∧ c.arrTime < ea c.arr then
      mainLoopF arrival rest (i + 1) (Function.update ea c.arr c.arrTime)
        (Function.update ic c.arr i)
        (if c.arr = arrival then min earliest c.arrTime else earliest)
    else if earliest ≤ c.depTime then (ea, ic, earliest)
    else mainLoopF arrival rest (i + 1) ea ic earliest

/-- The `while` loop of `CSA.find_path`, with fuel.  Each step reads the
connection at the current index and follows `in_connection` at its departure
station; connections are accumulated in visit order (the caller reverses). -/
def findPathGoE (conns : List Conn) (ic : List Nat) (fuel idx : Nat)
    (acc : List Conn) : Except PyErr (List Conn) :=
  if idx = MAX_INT_N then .ok acc
  else match fuel with
    | 0 => .error .nonTermination
    | fuel' + 1 => do
      let c ← listGetE conns idx
      let nxt ← listGetE ic c.dep
      findPathGoE conns ic fuel' nxt (acc ++ [c])

/-- `CSA.find_path`: reconstruct the connection sequence ending at
`arrival_station` by following `in_connection` backwards, then reverse. -/
def findPathE (conns : List Conn) (ic : List Nat) (arrival_station : Nat) :
    Except PyErr (List Conn) := do
  let start ← listGetE ic arrival_station
  if start ≠ MAX_INT_N then
    let route ← findPathGoE conns ic (conns.length + 1) start []
    .ok route.reverse
  else .ok []

/-- `CSA.compute`: initialise both arrays to the sentinel, write
`earliest_arrival[departure_station] = departure_time` (before any range
check), run the main loop only when both endpoints pass the `<=
max_stations` check, and always reconstruct with `find_path`.  The final
array states are returned alongside the route so that the specification can
speak about the computed earliest-arrival values. -/
def computeE (max_stations : Nat) (conns : List Conn)
    (departure_station arrival_station : Nat) (departure_time : Int) :
    Except PyErr (List Int × List Nat × List Conn) := do
  let ic0 := List.replicate max_stations MAX_INT_N
  let ea0 := List.replicate max_stations MAX_INT
  let ea1 ← listSetE ea0 departure_station departure_time
  let s ←
    if departure_station ≤ max_stations ∧ arrival_station ≤ max_stations then
      mainLoopE arrival_station conns 0 ea1 ic0 MAX_INT
    else .ok (ea1, ic0)
  let route ← findPathE conns s.2 arrival_station
  .ok (s.1, s.2, route)

/-! ## Specification predicates for the CSA

A *feasible chain* is the notion used by spec property P2: a nonempty
sequence of connections from the scanned list, starting at the departure
station no earlier than the departure time, consecutively linked in space
and time. -/

/-- Connection `b` can follow connection `a` in a chain. -/
def chainLink (a b : Conn) : Prop := b.dep = a.arr ∧ a.arrTime ≤ b.depTime

/-- A feasible chain over `conns` from station `s0` (departing at or after
`t0`) to station `e0`. -/
def FeasChain (conns : List Conn) (s0 : Nat) (t0 : Int) (e0 : Nat)
    (ch : List Conn) : Prop :=
  ch ≠ [] ∧ (∀ c ∈ ch, c ∈ conns) ∧
    (∀ c0 ∈ ch.head?, c0.dep = s0 ∧ t0 ≤ c0.depTime) ∧
    ch.Chain' chainLink ∧ (∀ cl ∈ ch.getLast?, cl.arr = e0)

/-- The connection list is sorted by ascending departure time
(the precondition the CSA relies on, spec P1). -/
def DepSorted (conns : List Conn) : Prop :=
  conns.Pairwise (fun a b => a.depTime ≤ b.depTime)

/-! ## Agreement of the bounds-checked loop with the pure loop -/

theorem getD_set_pointwise {α : Type} [Inhabited α] (l : List α) (i : Nat)
    (h : i < l.length) (v : α) (d : α) (j : Nat) :
    (l.set i v).getD j d = if j = i then v else l.getD j d := by
  rcases eq_or_ne j i with rfl | hne
  · simp [List.getD_eq_getElem?_getD, List.getElem?_set_self h]
  · rw [List.getD_eq_getElem?_getD, List.getElem?_set_ne (Ne.symm hne),
      ← List.getD_eq_getElem?_getD, if_neg hne]

theorem set_getD_eq_update (l : List Int) (i : Nat) (h : i < l.length) (v : Int) :
    (fun s => (l.set i v).getD s MAX_INT) =
      Function.update (fun s => l.getD s MAX_INT) i v := by
  funext j
  rw [getD_set_pointwise l i h v]
  by_cases hj : j = i
  · subst hj; simp [Function.update_same]
  · simp [hj, Function.update_noteq hj]

theorem set_getD_eq_update_nat (l : List Nat) (i : Nat) (h : i < l.length) (v : Nat) :
    (fun s => (l.set i v).getD s MAX_INT_N) =
      Function.update (fun s => l.getD s MAX_INT_N) i v := by
  funext j
  rw [getD_set_pointwise l i h v]
  by_cases hj : j = i
  · subst hj; simp [Function.update_same]
  · simp [hj, Function.update_noteq hj]

/-- One-step unfolding of `mainLoopE` when both station indices of the head
connection are in range. -/
theorem mainLoopE_cons (arrival : Nat) (c : Conn) (rest : List Conn) (i : Nat)
    (eaL : List Int) (icL : List Nat) (e : Int)
    (hdep : c.dep < eaL.length) (harr : c.arr < eaL.length)
    (harr' : c.arr < icL.length) :
    mainLoopE arrival (c :: rest) i eaL icL e =
      if eaL.getD c.dep MAX_INT ≤ c.depTime ∧ c.arrTime < eaL.getD c.arr MAX_INT then
        mainLoopE arrival rest (i + 1) (eaL.set c.arr c.arrTime) (icL.set c.arr i)
          (if c.arr = arrival then min e c.arrTime else e)
      else if e ≤ c.depTime then .ok (eaL, icL)
      else mainLoopE arrival rest (i + 1) eaL icL e := by
  have h1 : listGetE eaL c.dep = .ok (eaL.getD c.dep MAX_INT) := by
    rw [listGetE, dif_pos hdep, List.getD_eq_getElem _ _ hdep]
  have h2 : listGetE eaL c.arr = .ok (eaL.getD c.arr MAX_INT) := by
    rw [listGetE, dif_pos harr, List.getD_eq_getElem _ _ harr]
  have h3 : listSetE eaL c.arr c.arrTime = .ok (eaL.set c.arr c.arrTime) := by
    rw [listSetE, if_pos harr]
  have h4 : listSetE icL c.arr i = .ok (icL.set c.arr i) := by
    rw [listSetE, if_pos harr']
  by_cases hc1 : eaL.getD c.dep MAX_INT ≤ c.depTime
  · by_cases hc2 : c.arrTime < eaL.getD c.arr MAX_INT
    · simp only [mainLoopE, h1, h2, h3, h4, bind, Except.bind, if_pos hc1,
        if_pos hc2, if_pos (And.intro hc1 hc2)]
    · have hcond : ¬(eaL.getD c.dep MAX_INT ≤ c.depTime ∧
          c.arrTime < eaL.getD c.arr MAX_INT) := fun h => hc2 h.2
      simp only [mainLoopE, h1, h2, bind, Except.bind, if_pos hc1,
        if_neg hc2, if_neg hcond]
  · have hcond : ¬(eaL.getD c.dep MAX_INT ≤ c.depTime ∧
        c.arrTime < eaL.getD c.arr MAX_INT) := fun h => hc1 h.1
    simp only [mainLoopE, h1, bind, Except.bind, if_neg hc1, if_neg hcond]

/-- Under in-range station indices, `mainLoopE` succeeds and computes the
same states as the pure `mainLoopF`. -/
theorem mainLoopE_agrees (arrival : Nat) :
    ∀ (rest : List Conn) (i : Nat) (eaL : List Int) (icL : List Nat) (e : Int),
    (∀ c ∈ rest, c.dep < eaL.length ∧ c.arr < eaL.length) →
    icL.length = eaL.length →
    ∃ eaL' icL',
      mainLoopE arrival rest i eaL icL e = .ok (eaL', icL') ∧
      eaL'.length = eaL.length ∧ icL'.length = icL.length ∧
      (fun s => eaL'.getD s MAX_INT) =
        (mainLoopF arrival rest i (fun s => eaL.getD s MAX_INT)
          (fun s => icL.getD s MAX_INT_N) e).1 ∧
      (fun s => icL'.getD s MAX_INT_N) =
        (mainLoopF arrival rest i (fun s => eaL.getD s MAX_INT)
          (fun s => icL.getD s MAX_INT_N) e).2.1 := by
  intro rest
  induction rest with
  | nil =>
    intro i eaL icL e _ _
    exact ⟨eaL, icL, rfl, rfl, rfl, rfl, rfl⟩
  | cons c rest ih =>
    intro i eaL icL e hb hlen
    obtain ⟨hdep, harr⟩ := hb c (List.mem_cons_self c rest)
    have harr' : c.arr < icL.length := hlen ▸ harr
    have hb' : ∀ x ∈ rest, x.dep < eaL.length ∧ x.arr < eaL.length :=
      fun x hx => hb x (List.mem_cons_of_mem c hx)
    rw [mainLoopE_cons arrival c rest i eaL icL e hdep harr harr']
    simp only [mainLoopF]
    by_cases hcond : eaL.getD c.dep MAX_INT ≤ c.depTime ∧
        c.arrTime < eaL.getD c.arr MAX_INT
    · rw [if_pos hcond, if_pos hcond]
      obtain ⟨eaL', icL', heq, hl1, hl2, hfe, hfi⟩ :=
        ih (i + 1) (eaL.set c.arr c.arrTime) (icL.set c.arr i)
          (if c.arr = arrival then min e c.arrTime else e)
          (by rw [List.length_set]; exact hb')
          (by rw [List.length_set, List.length_set]; exact hlen)
      refine ⟨eaL', icL', heq, ?_, ?_, ?_, ?_⟩
      · rw [hl1, List.length_set]
      · rw [hl2, List.length_set]
      · rw [hfe, set_getD_eq_update eaL c.arr harr,
          set_getD_eq_update_nat icL c.arr harr']
      · rw [hfi, set_getD_eq_update eaL c.arr harr,
          set_getD_eq_update_nat icL c.arr harr']
    · rw [if_neg hcond, if_neg hcond]
      by_cases h3 : e ≤ c.depTime
      · rw [if_pos h3, if_pos h3]
        exact ⟨eaL, icL, rfl, rfl, rfl, rfl, rfl⟩
      · rw [if_neg h3, if_neg h3]
        exact ih (i + 1) eaL icL e hb' hlen

/-! ## Invariants of the scan state -/

/-- Every finite `earliest_arrival` value is witnessed: it is the sentinel,
the initial departure-time entry, or the arrival time of a feasible chain. -/
def EAok (conns : List Conn) (s0 : Nat) (t0 : Int) (ea : Nat → Int) : Prop :=
  ∀ s, ea s = MAX_INT ∨ (s = s0 ∧ ea s = t0) ∨
    ∃ ch cl, FeasChain conns s0 t0 s ch ∧ ch.getLast? = some cl ∧
      cl.arrTime = ea s

/-- Every set `in_connection` entry points to a valid connection arriving at
that station with the recorded arrival time, whose departure is still
reachable by `earliest_arrival`. -/
def ICok (conns : List Conn) (ea : Nat → Int) (ic : Nat → Nat) : Prop :=
  ∀ s, ic s ≠ MAX_INT_N →
    ∃ c, conns[ic s]? = some c ∧ c.arr = s ∧ c.arrTime = ea s ∧
      ea c.dep ≤ c.depTime

theorem feasChain_single {conns : List Conn} {s0 : Nat} {t0 : Int} (c : Conn)
    (hc : c ∈ conns) (hdep : c.dep = s0) (ht0 : t0 ≤ c.depTime) :
    FeasChain conns s0 t0 c.arr [c] := by
  refine ⟨List.cons_ne_nil _ _, ?_, ?_, ?_, ?_⟩
  · intro x hx; rw [List.mem_singleton] at hx; subst hx; exact hc
  · intro x hx
    simp only [List.head?_cons, Option.mem_def, Option.some.injEq] at hx
    subst hx; exact ⟨hdep, ht0⟩
  · exact List.chain'_singleton c
  · intro x hx
    simp only [List.getLast?_singleton, Option.mem_def, Option.some.injEq] at hx
    subst hx; rfl

theorem feasChain_snoc {conns : List Conn} {s0 : Nat} {t0 : Int} {s : Nat}
    {ch : List Conn} {cl : Conn} (h : FeasChain conns s0 t0 s ch)
    (hlast : ch.getLast? = some cl) (c : Conn) (hc : c ∈ conns)
    (hdep : c.dep = s) (hlink : cl.arrTime ≤ c.depTime) :
    FeasChain conns s0 t0 c.arr (ch ++ [c]) := by
  obtain ⟨hne, hmem, hhead, hchain, hend⟩ := h
  refine ⟨by simp, ?_, ?_, ?_, ?_⟩
  · intro x hx
    rcases List.mem_append.1 hx with hx | hx
    · exact hmem x hx
    · rw [List.mem_singleton] at hx; subst hx; exact hc
  · intro x hx
    apply hhead
    rcases hh : ch.head? with _ | y
    · exact absurd (List.head?_eq_none_iff.1 hh) hne
    · rw [List.head?_append, hh] at hx
      simpa using hx
  · rw [List.chain'_append]
    refine ⟨hchain, List.chain'_singleton c, ?_⟩
    intro x hx y hy
    simp only [List.head?_cons, Option.mem_def, Option.some.injEq] at hy
    subst hy
    rw [Option.mem_def, hlast, Option.some.injEq] at hx
    subst hx
    exact ⟨by rw [hdep, hend cl (by rw [Option.mem_def, hlast])], hlink⟩
  · intro x hx
    rw [Option.mem_def, List.getLast?_concat, Option.some.injEq] at hx
    subst hx; rfl

/-- Relaxing a connection preserves the `earliest_arrival` witnesses. -/
theorem EAok_update {conns : List Conn} {s0 : Nat} {t0 : Int} {ea : Nat → Int}
    {c : Conn} (hc : c ∈ conns) (hrelax : ea c.dep ≤ c.depTime)
    (hlt : c.depTime < c.arrTime) (hmax : c.arrTime < MAX_INT)
    (h : EAok conns s0 t0 ea) :
    EAok conns s0 t0 (Function.update ea c.arr c.arrTime) := by
  intro s
  by_cases hs : s = c.arr
  · subst hs
    right; right
    rcases h c.dep with hd | ⟨hd0, hdv⟩ | ⟨ch, cl, hch, hcl, hv⟩
    · exfalso
      rw [hd] at hrelax
      exact absurd (lt_of_le_of_lt hrelax (lt_trans hlt hmax)) (lt_irrefl _)
    · exact ⟨[c], c, feasChain_single c hc hd0 (hdv ▸ hrelax),
        List.getLast?_singleton c, by rw [Function.update_same]⟩
    · exact ⟨ch ++ [c], c, feasChain_snoc hch hcl c hc rfl (hv ▸ hrelax),
        List.getLast?_concat _, by rw [Function.update_same]⟩
  · rw [Function.update_noteq hs]
    exact h s

/-- Relaxing a connection preserves the `in_connection` pointer invariant. -/
theorem ICok_update {conns : List Conn} {ea : Nat → Int} {ic : Nat → Nat}
    {c : Conn} {i : Nat} (hci : conns[i]? = some c)
    (hrelax : ea c.dep ≤ c.depTime) (harr_lt : c.arrTime < ea c.arr)
    (hlt : c.depTime < c.arrTime) (h : ICok conns ea ic) :
    ICok conns (Function.update ea c.arr c.arrTime)
      (Function.update ic c.arr i) := by
  have hne_self : c.dep ≠ c.arr := by
    intro he
    rw [he] at hrelax
    exact absurd (lt_of_lt_of_le harr_lt hrelax) (not_lt_of_lt hlt)
  have hea_le : ∀ x, Function.update ea c.arr c.arrTime x ≤ ea x := by
    intro x
    by_cases hx : x = c.arr
    · subst hx; rw [Function.update_same]; exact le_of_lt harr_lt
    · rw [Function.update_noteq hx]
  intro s hs
  by_cases hsc : s = c.arr
  · subst hsc
    rw [Function.update_same]
    exact ⟨c, hci, rfl, by rw [Function.update_same],
      by rw [Function.update_noteq hne_self]; exact hrelax⟩
  · rw [Function.update_noteq hsc] at hs ⊢
    obtain ⟨c', hc', harr', hav', hdep'⟩ := h s hs
    exact ⟨c', hc', harr', by rw [Function.update_noteq hsc]; exact hav',
      le_trans (hea_le c'.dep) hdep'⟩

/-- The earliest-arrival array only ever decreases during the scan. -/
theorem mainLoopF_ea_le (arrival : Nat) :
    ∀ (rest : List Conn) (i : Nat) (ea : Nat → Int) (ic : Nat → Nat) (e : Int)
      (s : Nat), (mainLoopF arrival rest i ea ic e).1 s ≤ ea s := by
  intro rest
  induction rest with
  | nil => intro i ea ic e s; exact le_refl _
  | cons c rest ih =>
    intro i ea ic e s
    rw [mainLoopF]
    by_cases hcond : ea c.dep ≤ c.depTime ∧ c.arrTime < ea c.arr
    · rw [if_pos hcond]
      refine le_trans (ih _ _ _ _ _) ?_
      by_cases hs : s = c.arr
      · subst hs; rw [Function.update_same]; exact le_of_lt hcond.2
      · rw [Function.update_noteq hs]
    · rw [if_neg hcond]
      by_cases h3 : e ≤ c.depTime
      · rw [if_pos h3]
      · rw [if_neg h3]; exact ih _ _ _ _ _

/-- The scan preserves both state invariants along the whole list. -/
theorem mainLoopF_inv (conns : List Conn) (s0 e0 : Nat) (t0 : Int)
    (ht : ∀ c ∈ conns, c.depTime < c.arrTime ∧ c.arrTime < MAX_INT) :
    ∀ (rest : List Conn) (i : Nat) (ea : Nat → Int) (ic : Nat → Nat) (e : Int),
    conns.drop i = rest → EAok conns s0 t0 ea → ICok conns ea ic →
    EAok conns s0 t0 (mainLoopF e0 rest i ea ic e).1 ∧
    ICok conns (mainLoopF e0 rest i ea ic e).1
      (mainLoopF e0 rest i ea ic e).2.1 := by
  intro rest
  induction rest with
  | nil => intro i ea ic e _ hea hic; exact ⟨hea, hic⟩
  | cons c rest ih =>
    intro i ea ic e hdrop hea hic
    have hi : conns[i]? = some c := by
      have h0 := List.getElem?_drop conns i 0
      rw [hdrop] at h0
      simpa using h0.symm
    have hcmem : c ∈ conns := List.getElem?_mem hi
    have hdrop' : conns.drop (i + 1) = rest := by
      have h1 : List.drop 1 (List.drop i conns) = List.drop (i + 1) conns :=
        List.drop_drop 1 i conns
      rw [← h1, hdrop, List.drop_one, List.tail_cons]
    rw [mainLoopF]
    by_cases hcond : ea c.dep ≤ c.depTime ∧ c.arrTime < ea c.arr
    · rw [if_pos hcond]
      exact ih (i + 1) _ _ _ hdrop'
        (EAok_update hcmem hcond.1 (ht c hcmem).1 (ht c hcmem).2 hea)
        (ICok_update hi hcond.1 hcond.2 (ht c hcmem).1 hic)
    · rw [if_neg hcond]
      by_cases h3 : e ≤ c.depTime
      · rw [if_pos h3]; exact ⟨hea, hic⟩
      · rw [if_neg h3]; exact ih (i + 1) _ _ _ hdrop' hea hic

/-! ## Completeness: the scan reaches every feasible chain -/

theorem chain_head_lt_of_strict (a : Conn) :
    ∀ (t : List Conn), (a :: t).Chain' (fun x y => x.depTime < y.depTime) →
    ∀ x ∈ t, a.depTime < x.depTime := by
  intro t
  induction t generalizing a with
  | nil => intro _ x hx; exact absurd hx (List.not_mem_nil x)
  | cons b t2 ih =>
    intro hchain x hx
    rw [List.chain'_cons] at hchain
    rcases List.mem_cons.1 hx with rfl | hx'
    · exact hchain.1
    · exact lt_trans hchain.1 (ih b hchain.2 x hx')

theorem chain_strict_dep : ∀ (ch : List Conn), ch.Chain' chainLink →
    (∀ c ∈ ch, c.depTime < c.arrTime) →
    ch.Chain' (fun a b => a.depTime < b.depTime) := by
  intro ch
  induction ch with
  | nil => intro _ _; exact List.chain'_nil
  | cons a t ih =>
    intro hchain ht
    cases t with
    | nil => exact List.chain'_singleton a
    | cons b t2 =>
      rw [List.chain'_cons] at hchain ⊢
      refine ⟨lt_of_lt_of_le (ht a (List.mem_cons_self a _)) hchain.1.2, ?_⟩
      exact ih hchain.2 (fun x hx => ht x (List.mem_cons_of_mem a hx))

theorem chain_depT_lt_last (ch : List Conn)
    (h : ch.Chain' (fun a b => a.depTime < b.depTime))
    (ht : ∀ c ∈ ch, c.depTime < c.arrTime) :
    ∀ c0 ∈ ch.head?, ∀ cl ∈ ch.getLast?, c0.depTime < cl.arrTime := by
  intro c0 hc0 cl hcl
  rw [Option.mem_def] at hc0 hcl
  cases ch with
  | nil => simp at hc0
  | cons a t =>
    rw [List.head?_cons, Option.some.injEq] at hc0
    cases t with
    | nil =>
      rw [List.getLast?_singleton, Option.some.injEq] at hcl
      rw [← hc0, ← hcl]
      exact ht a (List.mem_cons_self a [])
    | cons b t2 =>
      have hclmem : cl ∈ b :: t2 := by
        rw [List.getLast?_cons_cons] at hcl
        exact List.mem_of_mem_getLast? hcl
      have h1 : a.depTime < cl.depTime :=
        chain_head_lt_of_strict a (b :: t2) h cl hclmem
      rw [← hc0]
      exact lt_trans h1 (ht cl (List.mem_cons_of_mem a hclmem))

/-- A chain of strictly increasing departure times whose members all come
from a list sorted by departure time is a sublist of that list. -/
theorem chain_sublist_of_sorted : ∀ (conns : List Conn), DepSorted conns →
    ∀ (ch : List Conn), (∀ c ∈ ch, c ∈ conns) →
    ch.Chain' (fun a b => a.depTime < b.depTime) → ch.Sublist conns := by
  intro conns
  induction conns with
  | nil =>
    intro _ ch hmem _
    cases ch with
    | nil => exact List.Sublist.refl []
    | cons a t => exact absurd (hmem a (List.mem_cons_self a t)) (List.not_mem_nil a)
  | cons cHead cs ih =>
    intro hsort ch hmem hchain
    have hsort' : DepSorted cs := (List.pairwise_cons.1 hsort).2
    have hhead_le : ∀ x ∈ cs, cHead.depTime ≤ x.depTime :=
      (List.pairwise_cons.1 hsort).1
    cases ch with
    | nil => exact List.nil_sublist _
    | cons a t =>
      have htail_mem : ∀ x ∈ t, x ∈ cs := by
        intro x hx
        have hax : a.depTime < x.depTime := chain_head_lt_of_strict a t hchain x hx
        rcases List.mem_cons.1 (hmem x (List.mem_cons_of_mem a hx)) with rfl | h
        · exfalso
          have hle : x.depTime ≤ a.depTime := by
            rcases List.mem_cons.1 (hmem a (List.mem_cons_self a t)) with h2 | h2
            · rw [h2]
            · exact hhead_le a h2
          exact absurd (lt_of_le_of_lt hle hax) (lt_irrefl _)
        · exact h
      by_cases hac : a = cHead
      · subst hac
        exact List.Sublist.cons₂ a (ih hsort' t htail_mem hchain.tail)
      · have ha : a ∈ cs := by
          rcases List.mem_cons.1 (hmem a (List.mem_cons_self a t)) with h | h
          · exact absurd h hac
          · exact h
        refine List.Sublist.cons cHead (ih hsort' (a :: t) ?_ hchain)
        intro x hx
        rcases List.mem_cons.1 hx with rfl | hx'
        · exact ha
        · exact htail_mem x hx'

/-- Completeness of the scan with early exit: after the loop, the
earliest-arrival entry of the destination is at most the arrival time of any
feasible chain that is a sublist of the remaining connections. -/
theorem mainLoopF_complete (e0 : Nat) :
    ∀ (rest : List Conn) (i : Nat) (ea : Nat → Int) (ic : Nat → Nat) (e : Int),
    rest.Pairwise (fun a b => a.depTime ≤ b.depTime) →
    (∀ c ∈ rest, c.depTime < c.arrTime) →
    ea e0 ≤ e →
    ∀ (ch : List Conn) (cl : Conn), ch.Sublist rest → ch.Chain' chainLink →
    (∀ c0 ∈ ch.head?, ea c0.dep ≤ c0.depTime) →
    ch.getLast? = some cl → cl.arr = e0 →
    (mainLoopF e0 rest i ea ic e).1 e0 ≤ cl.arrTime := by
  intro rest
  induction rest with
  | nil =>
    intro i ea ic e _ _ _ ch cl hsub _ _ hlast _
    rw [List.sublist_nil.1 hsub] at hlast
    simp at hlast
  | cons c rest ih =>
    intro i ea ic e hsort ht hee ch cl hsub hchain hhead hlast harre
    have hsort' := (List.pairwise_cons.1 hsort).2
    have hcle : ∀ x ∈ rest, c.depTime ≤ x.depTime := (List.pairwise_cons.1 hsort).1
    have ht' : ∀ x ∈ rest, x.depTime < x.arrTime :=
      fun x hx => ht x (List.mem_cons_of_mem c hx)
    have hchne : ch ≠ [] := by
      intro h; rw [h] at hlast; simp at hlast
    obtain ⟨c0, hc0⟩ : ∃ c0, ch.head? = some c0 := by
      cases ch with
      | nil => exact absurd rfl hchne
      | cons a t => exact ⟨a, rfl⟩
    have hchmem : ∀ x ∈ ch, x ∈ c :: rest := fun x hx => hsub.subset hx
    have hstrict : ch.Chain' (fun a b => a.depTime < b.depTime) :=
      chain_strict_dep ch hchain (fun x hx => ht x (hchmem x hx))
    have hc0lt : c0.depTime < cl.arrTime := by
      refine chain_depT_lt_last ch hstrict (fun x hx => ht x (hchmem x hx)) c0 ?_ cl ?_
      · rw [Option.mem_def]; exact hc0
      · rw [Option.mem_def]; exact hlast
    have hc0mem : c0 ∈ ch := List.mem_of_mem_head? (by rw [Option.mem_def]; exact hc0)
    have hcdep : c.depTime ≤ c0.depTime := by
      rcases List.mem_cons.1 (hchmem c0 hc0mem) with h | h
      · rw [h]
      · exact hcle c0 h
    rw [mainLoopF]
    by_cases hcond : ea c.dep ≤ c.depTime ∧ c.arrTime < ea c.arr
    · rw [if_pos hcond]
      have hupd_le : ∀ x, Function.update ea c.arr c.arrTime x ≤ ea x := by
        intro x
        by_cases hx : x = c.arr
        · subst hx; rw [Function.update_same]; exact le_of_lt hcond.2
        · rw [Function.update_noteq hx]
      have hee' : Function.update ea c.arr c.arrTime e0 ≤
          (if c.arr = e0 then min e c.arrTime else e) := by
        by_cases harr : c.arr = e0
        · have h2 : ea c.arr ≤ e := by rw [harr]; exact hee
          rw [if_pos harr, ← harr, Function.update_same]
          exact le_min (le_of_lt (lt_of_lt_of_le hcond.2 h2)) (le_refl _)
        · rw [if_neg harr, Function.update_noteq (fun h => harr h.symm)]
          exact hee
      cases hsub with
      | cons _ htail =>
        refine ih (i + 1) _ _ _ hsort' ht' hee' ch cl htail hchain ?_ hlast harre
        intro x hx
        exact le_trans (hupd_le x.dep) (hhead x hx)
      | cons₂ _ htail =>
        rename_i t
        cases t with
        | nil =>
          have hcl : c = cl := by simpa using hlast
          refine le_trans (mainLoopF_ea_le e0 rest (i + 1) _ _ _ e0) ?_
          have he0 : e0 = c.arr := by rw [hcl]; exact harre.symm
          rw [he0, Function.update_same, hcl]
        | cons th tt =>
          have hlink := List.chain'_cons.1 hchain
          refine ih (i + 1) _ _ _ hsort' ht' hee' (th :: tt) cl htail hlink.2 ?_
            (by rw [← List.getLast?_cons_cons]; exact hlast) harre
          intro x hx
          have hxth : th = x := by simpa using hx
          subst hxth
          rw [hlink.1.1, Function.update_same]
          exact hlink.1.2
    · rw [if_neg hcond]
      by_cases h3 : e ≤ c.depTime
      · rw [if_pos h3]
        exact le_of_lt (lt_of_le_of_lt (le_trans hee (le_trans h3 hcdep)) hc0lt)
      · rw [if_neg h3]
        cases hsub with
        | cons _ htail =>
          exact ih (i + 1) _ _ _ hsort' ht' hee ch cl htail hchain hhead hlast harre
        | cons₂ _ htail =>
          rename_i t
          have h1 : ea c.dep ≤ c.depTime :=
            hhead c (by rw [Option.mem_def, List.head?_cons])
          have h2 : ea c.arr ≤ c.arrTime := by
            by_contra hlt
            exact hcond ⟨h1, lt_of_not_le hlt⟩
          cases t with
          | nil =>
            have hcl : c = cl := by simpa using hlast
            refine le_trans (mainLoopF_ea_le e0 rest (i + 1) _ _ _ e0) ?_
            have he0 : e0 = c.arr := by rw [hcl]; exact harre.symm
            rw [he0, ← hcl]
            exact h2
          | cons th tt =>
            have hlink := List.chain'_cons.1 hchain
            refine ih (i + 1) _ _ _ hsort' ht' hee (th :: tt) cl htail hlink.2 ?_
              (by rw [← List.getLast?_cons_cons]; exact hlast) harre
            intro x hx
            have hxth : th = x := by simpa using hx
            subst hxth
            rw [hlink.1.1]
            exact le_trans h2 hlink.1.2

/-! ## Termination of path reconstruction -/

theorem countP_lt_of_witness {α : Type} (p q : α → Bool) :
    ∀ (l : List α), (∀ x ∈ l, p x → q x) → ∀ x0 ∈ l, q x0 → ¬ p x0 = true →
    l.countP p < l.countP q := by
  intro l
  induction l with
  | nil => intro _ x0 h0; exact absurd h0 (List.not_mem_nil x0)
  | cons a t ih =>
    intro hpq x0 hx0 hq hnp
    rw [List.countP_cons, List.countP_cons]
    rcases List.mem_cons.1 hx0 with rfl | hx0'
    · have h1 : t.countP p ≤ t.countP q :=
        List.countP_mono_left (fun x hx => hpq x (List.mem_cons_of_mem x0 hx))
      have hp' : p x0 = false := by rw [← Bool.not_eq_true]; exact hnp
      simp only [hq, hp', Bool.false_eq_true, if_true, if_false]
      omega
    · have h1 := ih (fun x hx => hpq x (List.mem_cons_of_mem a hx)) x0 hx0' hq hnp
      have h2 : (if p a then 1 else 0) ≤ (if q a then 1 else 0) := by
        by_cases hpa : p a
        · simp [hpa, hpq a (List.mem_cons_self a t) hpa]
        · simp [hpa]
      omega

/-- Following the `in_connection` pointers terminates and never leaves the
array bounds, as long as the pointer invariant holds and every connection
departs strictly before it arrives. -/
theorem findPathGoE_ok (conns : List Conn) (icL : List Nat) (ea : Nat → Int)
    (hic : ICok conns ea (fun s => icL.getD s MAX_INT_N))
    (hb : ∀ c ∈ conns, c.dep < icL.length)
    (ht : ∀ c ∈ conns, c.depTime < c.arrTime) :
    ∀ (fuel : Nat) (idx : Nat) (acc : List Conn),
    (idx = MAX_INT_N ∨ ∃ c, conns[idx]? = some c ∧ ea c.dep ≤ c.depTime ∧
      conns.countP (fun x => decide (x.arrTime ≤ c.arrTime)) < fuel) →
    ∃ r, findPathGoE conns icL fuel idx acc = .ok r := by
  intro fuel
  induction fuel with
  | zero =>
    intro idx acc h
    rcases h with h | ⟨c, _, _, hcnt⟩
    · exact ⟨acc, by rw [findPathGoE, if_pos h]⟩
    · exact absurd hcnt (Nat.not_lt_zero _)
  | succ fuel ih =>
    intro idx acc h
    rcases h with h | ⟨c, hc, hdep, hcnt⟩
    · exact ⟨acc, by rw [findPathGoE, if_pos h]⟩
    · have hidx_ne : idx ≠ MAX_INT_N ∨ idx = MAX_INT_N := Or.symm (em _)
      rcases hidx_ne with hne | heq
      · have hcmem : c ∈ conns := List.getElem?_mem hc
        have hidx_lt : idx < conns.length := by
          by_contra hge
          rw [List.getElem?_eq_none (le_of_not_lt hge)] at hc
          exact Option.noConfusion hc
        have hget1 : listGetE conns idx = .ok c := by
          rw [listGetE, dif_pos hidx_lt]
          rw [List.getElem?_eq_getElem hidx_lt, Option.some.injEq] at hc
          rw [hc]
        have hdlt : c.dep < icL.length := hb c hcmem
        have hget2 : listGetE icL c.dep = .ok (icL.getD c.dep MAX_INT_N) := by
          rw [listGetE, dif_pos hdlt, List.getD_eq_getElem _ _ hdlt]
        rw [findPathGoE, if_neg hne]
        simp only [hget1, hget2, bind, Except.bind]
        apply ih
        by_cases hnxt : icL.getD c.dep MAX_INT_N = MAX_INT_N
        · exact Or.inl hnxt
        · obtain ⟨c', hc', _, hcav', hcdep'⟩ := hic c.dep hnxt
          refine Or.inr ⟨c', hc', hcdep', ?_⟩
          have hlt : c'.arrTime < c.arrTime := by
            rw [hcav']
            exact lt_of_le_of_lt hdep (ht c hcmem)
          have hmono : conns.countP (fun x => decide (x.arrTime ≤ c'.arrTime)) <
              conns.countP (fun x => decide (x.arrTime ≤ c.arrTime)) := by
            refine countP_lt_of_witness _ _ conns ?_ c hcmem ?_ ?_
            · intro x _ hx
              rw [decide_eq_true_iff] at hx ⊢
              exact le_trans hx (le_of_lt hlt)
            · simp
            · simp only [decide_eq_true_iff, not_le]
              exact hlt
          omega
      · exact ⟨acc, by rw [findPathGoE, if_pos heq]⟩

/-- `in_connection` invariant preservation, without any bound on arrival
times (used for the totality analysis of `compute`). -/
theorem mainLoopF_ic_inv (conns : List Conn) (e0 : Nat)
    (ht : ∀ c ∈ conns, c.depTime < c.arrTime) :
    ∀ (rest : List Conn) (i : Nat) (ea : Nat → Int) (ic : Nat → Nat) (e : Int),
    conns.drop i = rest → ICok conns ea ic →
    ICok conns (mainLoopF e0 rest i ea ic e).1
      (mainLoopF e0 rest i ea ic e).2.1 := by
  intro rest
  induction rest with
  | nil => intro i ea ic e _ hic; exact hic
  | cons c rest ih =>
    intro i ea ic e hdrop hic
    have hi : conns[i]? = some c := by
      have h0 := List.getElem?_drop conns i 0
      rw [hdrop] at h0
      simpa using h0.symm
    have hcmem : c ∈ conns := List.getElem?_mem hi
    have hdrop' : conns.drop (i + 1) = rest := by
      have h1 : List.drop 1 (List.drop i conns) = List.drop (i + 1) conns :=
        List.drop_drop 1 i conns
      rw [← h1, hdrop, List.drop_one, List.tail_cons]
    rw [mainLoopF]
    by_cases hcond : ea c.dep ≤ c.depTime ∧ c.arrTime < ea c.arr
    · rw [if_pos hcond]
      exact ih (i + 1) _ _ _ hdrop'
        (ICok_update hi hcond.1 hcond.2 (ht c hcmem) hic)
    · rw [if_neg hcond]
      by_cases h3 : e ≤ c.depTime
      · rw [if_pos h3]; exact hic
      · rw [if_neg h3]; exact ih (i + 1) _ _ _ hdrop' hic

/-- `find_path` succeeds under the pointer invariant, and returns the empty
route when the destination entry is still the sentinel. -/
theorem findPathE_ok (conns : List Conn) (icL : List Nat) (ea : Nat → Int)
    (hic : ICok conns ea (fun s => icL.getD s MAX_INT_N))
    (hb : ∀ c ∈ conns, c.dep < icL.length)
    (ht : ∀ c ∈ conns, c.depTime < c.arrTime)
    (arrSt : Nat) (harr : arrSt < icL.length) :
    ∃ r, findPathE conns icL arrSt = .ok r ∧
      (icL.getD arrSt MAX_INT_N = MAX_INT_N → r = []) := by
  have hget : listGetE icL arrSt = .ok (icL.getD arrSt MAX_INT_N) := by
    rw [listGetE, dif_pos harr, List.getD_eq_getElem _ _ harr]
  by_cases hstart : icL.getD arrSt MAX_INT_N = MAX_INT_N
  · refine ⟨[], ?_, fun _ => rfl⟩
    rw [findPathE]
    simp only [hget, bind, Except.bind]
    rw [if_neg (not_not_intro hstart)]
  · obtain ⟨c, hceq, _, _, hcdep⟩ := hic arrSt hstart
    obtain ⟨r0, hr0⟩ := findPathGoE_ok conns icL ea hic hb ht (conns.length + 1)
      (icL.getD arrSt MAX_INT_N) []
      (Or.inr ⟨c, hceq, hcdep, lt_of_le_of_lt (List.countP_le_length _)
        (Nat.lt_succ_self _)⟩)
    refine ⟨r0.reverse, ?_, fun hcontra => absurd hcontra hstart⟩
    rw [findPathE]
    simp only [hget, bind, Except.bind]
    rw [if_pos hstart, hr0]

/-- The initial `earliest_arrival` array, viewed as a function. -/
theorem ea_init_getD (max_stations s0 : Nat) (t0 : Int) (hs0 : s0 < max_stations) :
    (fun s => ((List.replicate max_stations MAX_INT).set s0 t0).getD s MAX_INT) =
      fun s => if s = s0 then t0 else MAX_INT := by
  funext s
  rw [getD_set_pointwise _ s0 (by rw [List.length_replicate]; exact hs0) t0]
  by_cases h : s = s0
  · rw [if_pos h, if_pos h]
  · rw [if_neg h, if_neg h, List.getD_eq_getElem?_getD]
    rcases lt_or_le s max_stations with hlt | hge
    · rw [List.getElem?_replicate, if_pos hlt]; rfl
    · rw [List.getElem?_eq_none
        (by rw [List.length_replicate]; exact hge)]; rfl

/-- The initial `in_connection` array, viewed as a function. -/
theorem ic_init_getD (max_stations : Nat) :
    (fun s => (List.replicate max_stations MAX_INT_N).getD s MAX_INT_N) =
      fun _ => MAX_INT_N := by
  funext s
  rw [List.getD_eq_getElem?_getD]
  rcases lt_or_le s max_stations with hlt | hge
  · rw [List.getElem?_replicate, if_pos hlt]; rfl
  · rw [List.getElem?_eq_none (by rw [List.length_replicate]; exact hge)]; rfl

deriving instance DecidableEq for Except

instance (a b : Conn) : Decidable (chainLink a b) :=
  inferInstanceAs (Decidable (b.dep = a.arr ∧ a.arrTime ≤ b.depTime))

instance (conns : List Conn) : Decidable (DepSorted conns) :=
  inferInstanceAs
    (Decidable (conns.Pairwise (fun a b : Conn => a.depTime ≤ b.depTime)))

/-- **C1 (amended).** For a connection list sorted by ascending departure
time whose station indices are all strictly below `max_stations`, where
every connection departs strictly before it arrives and arrives strictly
below the sentinel, and for in-range distinct departure/arrival stations:
`CSA.compute` succeeds (with its early-exit branch); the final
`earliest_arrival` entry at the destination is a lower bound on the arrival
time of every feasible chain and is attained by some feasible chain whenever
one exists — i.e. it equals the minimum of `c.arr_time` over all feasible
chains; and when no feasible chain exists, it stays at the sentinel and
`find_path` returns the empty route. -/
theorem C1_csa_compute_correct
    (max_stations : Nat) (conns : List Conn) (s0 e0 : Nat) (t0 : Int)
    (hsort : DepSorted conns)
    (hb : ∀ c ∈ conns, c.dep < max_stations ∧ c.arr < max_stations)
    (ht : ∀ c ∈ conns, c.depTime < c.arrTime ∧ c.arrTime < MAX_INT)
    (hs : s0 < max_stations) (he : e0 < max_stations) (hne : s0 ≠ e0) :
    ∃ ea ic route, computeE max_stations conns s0 e0 t0 = .ok (ea, ic, route) ∧
      (∀ ch cl, FeasChain conns s0 t0 e0 ch → ch.getLast? = some cl →
        ea.getD e0 MAX_INT ≤ cl.arrTime) ∧
      ((∃ ch, FeasChain conns s0 t0 e0 ch) →
        ∃ ch cl, FeasChain conns s0 t0 e0 ch ∧ ch.getLast? = some cl ∧
          cl.arrTime = ea.getD e0 MAX_INT) ∧
      ((¬ ∃ ch, FeasChain conns s0 t0 e0 ch) →
        ea.getD e0 MAX_INT = MAX_INT ∧ route = []) := by
  have hset : listSetE (List.replicate max_stations MAX_INT) s0 t0 =
      .ok ((List.replicate max_stations MAX_INT).set s0 t0) := by
    rw [listSetE, if_pos (by rw [List.length_replicate]; exact hs)]
  have hlen1 : ((List.replicate max_stations MAX_INT).set s0 t0).length =
      max_stations := by
    rw [List.length_set, List.length_replicate]
  obtain ⟨eaL', icL', hmain, hl1, hl2, hfe, hfi⟩ :=
    mainLoopE_agrees e0 conns 0
      ((List.replicate max_stations MAX_INT).set s0 t0)
      (List.replicate max_stations MAX_INT_N) MAX_INT
      (by intro c hc; rw [hlen1]; exact hb c hc)
      (by rw [List.length_replicate, hlen1])
  rw [ea_init_getD max_stations s0 t0 hs, ic_init_getD max_stations] at hfe hfi
  set F := mainLoopF e0 conns 0 (fun s => if s = s0 then t0 else MAX_INT)
    (fun _ => MAX_INT_N) MAX_INT with hF
  have heaFin : eaL'.getD e0 MAX_INT = F.1 e0 := congrFun hfe e0
  have hicFin : icL'.getD e0 MAX_INT_N = F.2.1 e0 := congrFun hfi e0
  have hEA0 : EAok conns s0 t0 (fun s => if s = s0 then t0 else MAX_INT) := by
    intro s
    by_cases hss : s = s0
    · exact Or.inr (Or.inl ⟨hss,
        by show (if s = s0 then t0 else MAX_INT) = t0; rw [if_pos hss]⟩)
    · exact Or.inl
        (by show (if s = s0 then t0 else MAX_INT) = MAX_INT; rw [if_neg hss])
  have hIC0 : ICok conns (fun s => if s = s0 then t0 else MAX_INT)
      (fun _ => MAX_INT_N) := fun _ hscon => absurd rfl hscon
  obtain ⟨hEA, hIC⟩ := mainLoopF_inv conns s0 e0 t0 ht conns 0
    (fun s => if s = s0 then t0 else MAX_INT) (fun _ => MAX_INT_N) MAX_INT
    (List.drop_zero conns) hEA0 hIC0
  obtain ⟨route, hroute, hremp⟩ := findPathE_ok conns icL' F.1
    (by rw [hfi]; exact hIC)
    (by intro c hc; rw [hl2, List.length_replicate]; exact (hb c hc).1)
    (fun c hc => (ht c hc).1) e0
    (by rw [hl2, List.length_replicate]; exact he)
  have hcompAll : ∀ ch cl, FeasChain conns s0 t0 e0 ch →
      ch.getLast? = some cl → eaL'.getD e0 MAX_INT ≤ cl.arrTime := by
    intro ch cl hfeas hlast
    have harre : cl.arr = e0 :=
      hfeas.2.2.2.2 cl (by rw [Option.mem_def]; exact hlast)
    have hchstrict : ch.Chain' (fun a b => a.depTime < b.depTime) :=
      chain_strict_dep ch hfeas.2.2.2.1
        (fun x hx => (ht x (hfeas.2.1 x hx)).1)
    have hsub : ch.Sublist conns :=
      chain_sublist_of_sorted conns hsort ch hfeas.2.1 hchstrict
    have hhd : ∀ c0 ∈ ch.head?,
        (fun s => if s = s0 then t0 else MAX_INT) c0.dep ≤ c0.depTime := by
      intro c0 hc0
      obtain ⟨hc0dep, hc0t⟩ := hfeas.2.2.1 c0 hc0
      show (if c0.dep = s0 then t0 else MAX_INT) ≤ c0.depTime
      rw [hc0dep, if_pos rfl]
      exact hc0t
    rw [heaFin]
    exact mainLoopF_complete e0 conns 0
      (fun s => if s = s0 then t0 else MAX_INT) (fun _ => MAX_INT_N) MAX_INT
      hsort (fun c hc => (ht c hc).1)
      (by show (if e0 = s0 then t0 else MAX_INT) ≤ MAX_INT
          rw [if_neg (fun h => hne h.symm)])
      ch cl hsub hfeas.2.2.2.1 hhd hlast harre
  refine ⟨eaL', icL', route, ?_, hcompAll, ?_, ?_⟩
  · simp [computeE, hset, bind, Except.bind,
      if_pos (And.intro (le_of_lt hs) (le_of_lt he)), hmain, hroute]
  · rintro ⟨ch0, hch0⟩
    obtain ⟨cl0, hcl0⟩ : ∃ cl0, ch0.getLast? = some cl0 := by
      rcases hgl : ch0.getLast? with _ | cl0
      · exact absurd (List.getLast?_eq_none_iff.1 hgl) hch0.1
      · exact ⟨cl0, rfl⟩
    have hcl0mem : cl0 ∈ ch0 :=
      List.mem_of_mem_getLast? (by rw [Option.mem_def]; exact hcl0)
    have hlt0 : F.1 e0 < MAX_INT := by
      rw [← heaFin]
      exact lt_of_le_of_lt (hcompAll ch0 cl0 hch0 hcl0)
        ((ht cl0 (hch0.2.1 cl0 hcl0mem)).2)
    rcases hEA e0 with hmax | ⟨he0s0, _⟩ | ⟨ch, cl, hfe2, hl2', hv⟩
    · rw [hmax] at hlt0; exact absurd hlt0 (lt_irrefl _)
    · exact absurd he0s0.symm hne
    · exact ⟨ch, cl, hfe2, hl2', by rw [heaFin]; exact hv⟩
  · intro hnone
    have hEAe0 : F.1 e0 = MAX_INT := by
      rcases hEA e0 with hmax | ⟨he0s0, _⟩ | ⟨ch, cl, hfe2, _, _⟩
      · exact hmax
      · exact absurd he0s0.symm hne
      · exact absurd ⟨ch, hfe2⟩ hnone
    refine ⟨by rw [heaFin, hEAe0], ?_⟩
    apply hremp
    by_contra hic_ne
    rw [hicFin] at hic_ne
    obtain ⟨c', hc'eq, _, hc'arrT, _⟩ := hIC e0 hic_ne
    have hc'mem : c' ∈ conns := List.getElem?_mem hc'eq
    rw [hEAe0] at hc'arrT
    exact absurd hc'arrT (ne_of_lt (ht c' hc'mem).2)

/-- **C1 (counterexample).** For the claim as stated — over *every* sorted
connection list — the computed value can differ from the minimum over
feasible chains: with a connection that arrives before it departs, the
chain taking the second connection and then the first is feasible and
reaches station 2 at time 10, yet `compute` leaves `earliest_arrival[2]` at
the sentinel and `find_path` returns the empty route. -/
theorem C1_counterexample :
    DepSorted [⟨1, 2, 3, 10, ⟨"r0", "t", none⟩, none⟩,
               ⟨0, 1, 5, 2, ⟨"r1", "t", none⟩, none⟩] ∧
    FeasChain [⟨1, 2, 3, 10, ⟨"r0", "t", none⟩, none⟩,
               ⟨0, 1, 5, 2, ⟨"r1", "t", none⟩, none⟩] 0 0 2
      [⟨0, 1, 5, 2, ⟨"r1", "t", none⟩, none⟩,
       ⟨1, 2, 3, 10, ⟨"r0", "t", none⟩, none⟩] ∧
    computeE 3 [⟨1, 2, 3, 10, ⟨"r0", "t", none⟩, none⟩,
                ⟨0, 1, 5, 2, ⟨"r1", "t", none⟩, none⟩] 0 2 0 =
      .ok ([0, 2, MAX_INT], [MAX_INT_N, 1, MAX_INT_N], []) := by
  refine ⟨by decide, ⟨by decide, by decide, by decide, ?_, by decide⟩, by decide⟩
  exact List.chain'_cons.2 ⟨by decide, List.chain'_singleton _⟩

/-- Witness for C1: the amended theorem applied at a one-connection list. -/
theorem C1_csa_compute_correct_witness :
    ∃ ea ic route,
      computeE 2 [⟨0, 1, 5, 10, ⟨"r", "t", none⟩, none⟩] 0 1 0 =
        .ok (ea, ic, route) := by
  obtain ⟨ea, ic, route, hok, -, -, -⟩ :=
    C1_csa_compute_correct 2 [⟨0, 1, 5, 10, ⟨"r", "t", none⟩, none⟩] 0 1 0
      (by decide) (by decide) (by decide) (by decide) (by decide) (by decide)
  exact ⟨ea, ic, route, hok⟩

/-- **C10 (counterexample).** The claimed precondition (departure station
and all station indices occurring in the list strictly below
`max_stations`) does not make `compute` total: with the empty connection
list and departure station 0 < 1 = `max_stations`, an out-of-range arrival
station still raises `IndexError`, because `find_path` always reads
`in_connection[arrival_station]`. -/
theorem C10_counterexample : computeE 1 [] 0 5 0 = .error .indexError := by
  decide

/-- **C10 (amended).** `CSA.compute` writes
`earliest_arrival[departure_station]` before its range check (which uses
`<=` rather than `<`), so every departure station at or beyond
`max_stations` raises `IndexError`; and `compute` returns a result whenever
the departure station, the arrival station and every station index of the
connection list are strictly below `max_stations` and every connection
departs strictly before it arrives. -/
theorem C10_compute_bounds (max_stations : Nat) (conns : List Conn)
    (dep arr : Nat) (t : Int) :
    (max_stations ≤ dep →
      computeE max_stations conns dep arr t = .error .indexError) ∧
    (dep < max_stations → arr < max_stations →
      (∀ c ∈ conns, c.dep < max_stations ∧ c.arr < max_stations) →
      (∀ c ∈ conns, c.depTime < c.arrTime) →
      ∃ ea ic route,
        computeE max_stations conns dep arr t = .ok (ea, ic, route)) := by
  constructor
  · intro hge
    have hsetErr : listSetE (List.replicate max_stations MAX_INT) dep t =
        .error .indexError := by
      rw [listSetE, if_neg (by rw [List.length_replicate]; exact not_lt.2 hge)]
    simp [computeE, hsetErr, bind, Except.bind]
  · intro hdep harr hb ht
    have hset : listSetE (List.replicate max_stations MAX_INT) dep t =
        .ok ((List.replicate max_stations MAX_INT).set dep t) := by
      rw [listSetE, if_pos (by rw [List.length_replicate]; exact hdep)]
    have hlen1 : ((List.replicate max_stations MAX_INT).set dep t).length =
        max_stations := by
      rw [List.length_set, List.length_replicate]
    obtain ⟨eaL', icL', hmain, hl1, hl2, hfe, hfi⟩ :=
      mainLoopE_agrees arr conns 0
        ((List.replicate max_stations MAX_INT).set dep t)
        (List.replicate max_stations MAX_INT_N) MAX_INT
        (by intro c hc; rw [hlen1]; exact hb c hc)
        (by rw [List.length_replicate, hlen1])
    rw [ic_init_getD max_stations] at hfi
    have hIC0 : ICok conns
        (fun s => ((List.replicate max_stations MAX_INT).set dep t).getD s MAX_INT)
        (fun _ => MAX_INT_N) := fun _ hscon => absurd rfl hscon
    have hIC := mainLoopF_ic_inv conns arr ht conns 0
      (fun s => ((List.replicate max_stations MAX_INT).set dep t).getD s MAX_INT)
      (fun _ => MAX_INT_N) MAX_INT (List.drop_zero conns) hIC0
    obtain ⟨route, hroute, -⟩ := findPathE_ok conns icL'
      (mainLoopF arr conns 0
        (fun s => ((List.replicate max_stations MAX_INT).set dep t).getD s MAX_INT)
        (fun _ => MAX_INT_N) MAX_INT).1
      (by rw [hfi]; exact hIC)
      (by intro c hc; rw [hl2, List.length_replicate]; exact (hb c hc).1)
      ht arr (by rw [hl2, List.length_replicate]; exact harr)
    refine ⟨eaL', icL', route, ?_⟩
    simp [computeE, hset, bind, Except.bind,
      if_pos (And.intro (le_of_lt hdep) (le_of_lt harr)), hmain, hroute]

/-- Witness for C10: both halves of the amended statement at concrete
inputs. -/
theorem C10_compute_bounds_witness :
    computeE 1 [] 1 0 0 = .error .indexError ∧
    (∃ ea ic route, computeE 1 [] 0 0 0 = .ok (ea, ic, route)) :=
  ⟨(C10_compute_bounds 1 [] 1 0 0).1 (le_refl 1),
   (C10_compute_bounds 1 [] 0 0 0).2 (by decide) (by decide)
     (by intro c hc; exact absurd hc (List.not_mem_nil c))
     (by intro c hc; exact absurd hc (List.not_mem_nil c))⟩

/-! ## The multigraph builder of mtr_pathfinder.py (THEORY / WAITING)

Floats are embedded as exact rationals.  The walking speeds are the module
constants; `math.sqrt` on the exact rational squares that appear in the
concrete runs below is `ratSqrt` (exact on perfect squares). -/

/-- `TRANSFER_SPEED = 4.317` (blocks per second). -/
def TRANSFER_SPEED : ℚ := 4317 / 1000

/-- `WILD_WALKING_SPEED = 2.25` (blocks per second). -/
def WILD_WALKING_SPEED : ℚ := 9 / 4

/-- Python's builtin `abs`. -/
def pyAbs (q : ℚ) : ℚ := if q < 0 then -q else q

/-- Python's builtin `round` to an integer: round-half-to-even. -/
def pyRound (q : ℚ) : ℤ :=
  if q - (⌊q⌋ : ℚ) < 1 / 2 then ⌊q⌋
  else if (1 / 2 : ℚ) < q - (⌊q⌋ : ℚ) then ⌊q⌋ + 1
  else if ⌊q⌋ % 2 = 0 then ⌊q⌋ else ⌊q⌋ + 1

/-- `lcm` from mtr_pathfinder.py: `a * b // gcd(a, b)`.  Python raises
`ZeroDivisionError` when `gcd(a, b) = 0`, i.e. when both arguments are 0. -/
def lcmPyE (a b : ℤ) : Except PyErr ℤ :=
  if (Int.gcd a b : ℤ) = 0 then .error .zeroDivision
  else .ok ((a * b).fdiv (Int.gcd a b))

/-- Python's `min` over a list (`ValueError` on an empty list). -/
def pyMin (l : List ℚ) : Except PyErr ℚ :=
  match l with
  | [] => .error .valueError
  | x :: xs => .ok (xs.foldl min x)

/-- An edge label: a single route name (THEORY rides and walk edges) or the
list of parallel route names built in WAITING mode. -/
inductive Label where
  | single (s : String)
  | multi (names : List String)
deriving DecidableEq, Repr

/-- One admission record of WAITING mode: `(dur, wait, route_name)` as
accumulated in `edges_dict`. -/
structure WRec where
  dur : ℚ
  wait : ℚ
  route : String
deriving DecidableEq, Repr

/-- The parallel-route combination of WAITING mode (create_graph, the per
station-pair body of the loop over `edges_dict`): keep the records within
60 s of the fastest ride, fold `lcm` over the rounded nonzero intervals, sum
`lcm_sum / round(x)` (this division is where `ZeroDivisionError` escapes
when a nonzero interval rounds to 0), halve, and append the walking
alternative when one exists within 60 s of the fastest ride.  Returns
`(final_routes, min_dur, sum_int)`, the single record stored back into
`edges_attr_dict` for this pair. -/
def combineParallel (dur_tup : List WRec) (walking : Option (ℚ × String)) :
    Except PyErr (List String × ℚ × ℚ) := do
  let min_dur ← pyMin (dur_tup.map (fun x => x.dur))
  let keep := dur_tup.filter (fun x => pyAbs (x.dur - min_dur) ≤ 60)
  let final_wait := keep.map (fun x => x.wait)
  let final_routes := keep.map (fun x => x.route)
  let lcm_sum ← final_wait.foldlM
    (fun acc x => if x ≠ 0 then lcmPyE acc (pyRound x) else .ok acc) 1
  let sum_interval ← final_wait.foldlM
    (fun acc x =>
      if x ≠ 0 then
        if ((pyRound x : ℤ) : ℚ) = 0 then .error .zeroDivision
        else .ok (acc + (lcm_sum : ℚ) / ((pyRound x : ℤ) : ℚ))
      else .ok acc) 0
  let sum_int := if sum_interval = 0 then 0
    else (lcm_sum : ℚ) / sum_interval / 2
  let final_routes :=
    match walking with
    | some wk => if pyAbs (wk.1 - min_dur) ≤ 60 then final_routes ++ [wk.2]
        else final_routes
    | none => final_routes
  .ok (final_routes, min_dur, sum_int)

/-- One multigraph edge: networkx key, `weight`, `name` and `waiting`. -/
structure EdgeAttr where
  key : Nat
  weight : ℚ
  name : Label
  waiting : ℚ
deriving DecidableEq, Repr

/-- A `networkx.MultiDiGraph`, reduced to its edge data: adjacency entries
in insertion order, one per ordered station pair present in the graph. -/
abbrev Graph := List ((String × String) × List EdgeAttr)

/-- The edge list between `u` and `v`, when the pair is present. -/
def gLookup (G : Graph) (u v : String) : Option (List EdgeAttr) :=
  (G.find? (fun p => decide (p.1 = (u, v)))).map (fun p => p.2)

/-- `G.has_edge(u, v)`. -/
def gHasEdge (G : Graph) (u v : String) : Bool :=
  match gLookup G u v with
  | some es => ¬ es.isEmpty
  | none => false

/-- `networkx`'s fresh-key choice for a new parallel edge: start at the
current number of edges and skip keys already in use. -/
def freshKeyGo (keys : List Nat) : Nat → Nat → Nat
  | 0, k => k
  | fuel + 1, k => if k ∈ keys then freshKeyGo keys fuel (k + 1) else k

/-- Fresh key for the pair edge-list `es`. -/
def freshKey (es : List EdgeAttr) : Nat :=
  freshKeyGo (es.map (fun e => e.key)) (es.length + 1) es.length

/-- `G.add_edge(u, v, weight, name, waiting)`. -/
def gAddEdge (u v : String) (w : ℚ) (nm : Label) (wt : ℚ) : Graph → Graph
  | [] => [((u, v), [⟨0, w, nm, wt⟩])]
  | p :: rest =>
    if p.1 = (u, v) then (p.1, p.2 ++ [⟨freshKey p.2, w, nm, wt⟩]) :: rest
    else p :: gAddEdge u v w nm wt rest

/-- `G.remove_edge(u, v)` with no key: remove the most recently added edge
of the pair (dict `popitem`); drop the pair when it becomes empty. -/
def gRemoveEdge (u v : String) : Graph → Graph
  | [] => []
  | p :: rest =>
    if p.1 = (u, v) then
      if p.2.dropLast.isEmpty then rest else (p.1, p.2.dropLast) :: rest
    else p :: gRemoveEdge u v rest

/-- `G[u][v][0]['weight']`: the weight of the key-0 edge of the pair
(`KeyError` when absent). -/
def gEdge0Weight (G : Graph) (u v : String) : Except PyErr ℚ :=
  match gLookup G u v with
  | some es =>
    match es.find? (fun e => decide (e.key = 0)) with
    | some e => .ok e.weight
    | none => .error .keyError
  | none => .error .keyError

/-- The inner loop of the final edge-admission pass (create_graph): walk the
per-pair records in order, keeping those whose total weight is within 60 s
of the pair minimum and positive; kept edges get consecutive keys (the
fresh-key rule degenerates to this because the keys are added without
removals in between). -/
def admitPairEdges (min_time : ℚ) : List (Label × ℚ × ℚ) → Nat → List EdgeAttr
  | [], _ => []
  | r :: rest, k =>
    let weight := r.2.1 + r.2.2
    if pyAbs (weight - min_time) ≤ 60 ∧ weight > 0 then
      ⟨k, weight, r.1, r.2.2⟩ :: admitPairEdges min_time rest (k + 1)
    else admitPairEdges min_time rest k

/-- The per-pair body of the admission pass:
`min_time = min(e[1] + e[2] for e in edge[1])` then the filtered adds. -/
def admitPair (recs : List (Label × ℚ × ℚ)) : Except PyErr (List EdgeAttr) := do
  let min_time ← pyMin (recs.map (fun r => r.2.1 + r.2.2))
  .ok (admitPairEdges min_time recs 0)

/-- The full admission pass over `edges_attr_dict` (whose keys, being dict
keys, are pairwise distinct): each pair's kept edges form that pair's
adjacency entry, pairs with no kept edge do not appear in the graph. -/
def admitGraph (attrs : List ((String × String) × List (Label × ℚ × ℚ))) :
    Except PyErr Graph :=
  attrs.foldlM (fun g e => do
    let es ← admitPair e.2
    .ok (if es.isEmpty then g else g ++ [(e.1, es)])) []

/-- `get_distance` with `square=True`: exact squared Euclidean distance. -/
def get_distance_sq (a b : ℚ × ℚ) : ℚ := (a.1 - b.1) ^ 2 + (a.2 - b.2) ^ 2

/-- Largest `r` with `r * r ≤ n`, by counting up (fuel `n` suffices). -/
def natSqrtLoop (n : Nat) : Nat → Nat → Nat
  | 0, r => r
  | fuel + 1, r => if (r + 1) * (r + 1) ≤ n then natSqrtLoop n fuel (r + 1) else r

/-- Integer square root by search. -/
def natSqrt (n : Nat) : Nat := natSqrtLoop n n 0

/-- `math.sqrt` as used on the wild-walk distances: the squared distances of
integer-coordinate stations are non-negative integers, and on the perfect
squares arising in the runs considered CPython's `math.sqrt` is exact, so it
is embedded as the exact integer square root. -/
def ratSqrt (q : ℚ) : ℚ := ((natSqrt q.num.toNat : ℤ) : ℚ)

/-- The wild-walking pass of create_graph (lines 982-1027): for every
ordered pair of distinct, non-avoided stations with coordinates that is not
already connected by a step-A walk edge (`waiting_walking_dict`) and is
within `MAX_WILD_BLOCKS`, consider the walk of `dist / WILD_WALKING_SPEED`
seconds: skip it when it is more than 60 s slower than the key-0 edge,
remove that edge when the walk is more than 120 s faster, and collect the
walk; finally add all collected walks as edges.  `math.sqrt` is modelled by
`ratSqrt` (exact on the perfect squares used below) and the f-string walk
label by the `formatWalk` parameter. -/
def wildPass (stations : List (String × Option (ℚ × ℚ)))
    (avoid_ids : List String) (waiting_walking_keys : List (String × String))
    (MAX_WILD_BLOCKS : ℚ) (formatWalk : ℚ → String) (G0 : Graph) :
    Except PyErr Graph := do
  let acc1 ← stations.foldlM (fun acc p1 =>
    if p1.1 ∈ avoid_ids then .ok acc
    else match p1.2 with
      | none => .ok acc
      | some c1 =>
        stations.foldlM (fun acc2 p2 =>
          if p2.1 ∈ avoid_ids then .ok acc2
          else match p2.2 with
            | none => .ok acc2
            | some c2 =>
              if p1.1 = p2.1 then .ok acc2
              else if (p1.1, p2.1) ∈ waiting_walking_keys then .ok acc2
              else
                let dist2 := get_distance_sq c1 c2
                if dist2 ≤ MAX_WILD_BLOCKS ^ 2 then
                  let dist := ratSqrt dist2
                  let duration := dist / WILD_WALKING_SPEED
                  if gHasEdge acc2.2 p1.1 p2.1 then do
                    let w0 ← gEdge0Weight acc2.2 p1.1 p2.1
                    if duration - w0 > 60 then .ok acc2
                    else
                      let attrs' := acc2.1 ++
                        [((p1.1, p2.1), (formatWalk dist, duration))]
                      if duration + 120 < w0 then
                        .ok (attrs', gRemoveEdge p1.1 p2.1 acc2.2)
                      else .ok (attrs', acc2.2)
                  else
                    .ok (acc2.1 ++ [((p1.1, p2.1), (formatWalk dist, duration))],
                      acc2.2)
                else .ok acc2) acc)
    (([] : List ((String × String) × (String × ℚ))), G0)
  .ok (acc1.1.foldl
    (fun g e => gAddEdge e.1.1 e.1.2 e.2.2 (Label.single e.2.1) 0 g) acc1.2)

/-- Steps C and D of create_graph: the admission pass over the accumulated
`edges_attr_dict`, followed (when `CALCULATE_WALKING_WILD` is true) by the
wild-walking pass. -/
def createGraphCD (attrs : List ((String × String) × List (Label × ℚ × ℚ)))
    (calculate_walking_wild : Bool)
    (stations : List (String × Option (ℚ × ℚ))) (avoid_ids : List String)
    (waiting_walking_keys : List (String × String)) (MAX_WILD_BLOCKS : ℚ)
    (formatWalk : ℚ → String) : Except PyErr Graph := do
  let G ← admitGraph attrs
  if calculate_walking_wild then
    wildPass stations avoid_ids waiting_walking_keys MAX_WILD_BLOCKS
      formatWalk G
  else .ok G

/-! ## Arithmetic facts about the Python helpers -/

theorem pyAbs_eq_abs (q : ℚ) : pyAbs q = |q| := by
  unfold pyAbs
  split_ifs with h
  · exact (abs_of_neg h).symm
  · exact (abs_of_nonneg (not_lt.1 h)).symm

theorem pyRound_intCast (n : ℤ) : pyRound (n : ℚ) = n := by
  unfold pyRound
  rw [Int.floor_intCast, sub_self]
  norm_num

theorem pyRound_eq_zero {w : ℚ} (h0 : 0 < w) (h1 : w < 1 / 2) :
    pyRound w = 0 := by
  unfold pyRound
  have hf : ⌊w⌋ = 0 :=
    Int.floor_eq_zero_iff.2 (Set.mem_Ico.2 ⟨le_of_lt h0, by linarith⟩)
  rw [hf, Int.cast_zero, sub_zero, if_pos h1]

theorem lcmPyE_pos (a b : ℤ) (ha : 1 ≤ a) (hb : 1 ≤ b) :
    lcmPyE a b = .ok (Int.lcm a b) := by
  have hgcd : 0 < Int.gcd a b := Int.gcd_pos_iff.2 (Or.inl (by omega))
  have hgcdZ : ((Int.gcd a b : ℤ)) ≠ 0 := by exact_mod_cast Nat.pos_iff_ne_zero.1 hgcd
  unfold lcmPyE
  rw [if_neg hgcdZ]
  congr 1
  have hmul : (a * b) = (Int.gcd a b : ℤ) * (Int.lcm a b : ℤ) := by
    have h1 : Int.gcd a b * Int.lcm a b = (a * b).natAbs := Int.gcd_mul_lcm a b
    have h2 : (a * b).natAbs = a * b :=
      Int.natAbs_of_nonneg (by positivity)
    rw [← h2]
    exact_mod_cast h1.symm
  rw [hmul, Int.mul_fdiv_cancel_left _ hgcdZ]

theorem one_le_int_lcm (a b : ℤ) (ha : 1 ≤ a) (hb : 1 ≤ b) :
    1 ≤ Int.lcm a b :=
  Nat.one_le_iff_ne_zero.2 (Int.lcm_ne_zero (by omega) (by omega))

/-- **C4.** In WAITING mode, for a station pair served by exactly two
parallel routes with equal ride time `D` and positive integer intervals
`I1`, `I2` — both admitted, no walking alternative — the combined record is
`([r1, r2], D, W)` with `W = lcm(I1,I2) / (2 * (lcm/I1 + lcm/I2))`, and the
admission pass stores exactly one edge for the pair, with waiting `W` and
ride time (weight minus waiting) `D`. -/
theorem C4_parallel_combination (u v : String) (D : ℚ) (I1 I2 : ℤ)
    (r1 r2 : String) (hI1 : 1 ≤ I1) (hI2 : 1 ≤ I2) (hD : 0 ≤ D) :
    ∃ W : ℚ,
      W = (Int.lcm I1 I2 : ℚ) /
        (2 * ((Int.lcm I1 I2 : ℚ) / (I1 : ℚ) + (Int.lcm I1 I2 : ℚ) / (I2 : ℚ))) ∧
      combineParallel [⟨D, (I1 : ℚ), r1⟩, ⟨D, (I2 : ℚ), r2⟩] none =
        .ok ([r1, r2], D, W) ∧
      admitGraph [((u, v), [(Label.multi [r1, r2], D, W)])] =
        .ok [((u, v), [⟨0, D + W, Label.multi [r1, r2], W⟩])] := by
  have hI1Q : (0 : ℚ) < (I1 : ℚ) := by exact_mod_cast lt_of_lt_of_le Int.zero_lt_one hI1
  have hI2Q : (0 : ℚ) < (I2 : ℚ) := by exact_mod_cast lt_of_lt_of_le Int.zero_lt_one hI2
  have hLpos : (0 : ℚ) < (Int.lcm I1 I2 : ℚ) := by
    exact_mod_cast lt_of_lt_of_le Nat.zero_lt_one (one_le_int_lcm I1 I2 hI1 hI2)
  have hSpos : (0 : ℚ) < (Int.lcm I1 I2 : ℚ) / (I1 : ℚ) + (Int.lcm I1 I2 : ℚ) / (I2 : ℚ) := by
    positivity
  refine ⟨(Int.lcm I1 I2 : ℚ) /
    (2 * ((Int.lcm I1 I2 : ℚ) / (I1 : ℚ) + (Int.lcm I1 I2 : ℚ) / (I2 : ℚ))), rfl, ?_, ?_⟩
  · have h1 : pyMin [D, D] = .ok D := by
      simp [pyMin, min_self]
    have h60 : decide (pyAbs (0 : ℚ) ≤ 60) = true := by decide
    have h2 : ([⟨D, (I1 : ℚ), r1⟩, ⟨D, (I2 : ℚ), r2⟩] : List WRec).filter
        (fun x => decide (pyAbs (x.dur - D) ≤ 60)) =
        [⟨D, (I1 : ℚ), r1⟩, ⟨D, (I2 : ℚ), r2⟩] := by
      simp [List.filter, sub_self, h60]
    have hI1ne : ((I1 : ℚ)) ≠ 0 := ne_of_gt hI1Q
    have hI2ne : ((I2 : ℚ)) ≠ 0 := ne_of_gt hI2Q
    have hlcm1 : lcmPyE 1 (pyRound (I1 : ℚ)) = .ok I1 := by
      rw [pyRound_intCast]
      unfold lcmPyE
      simp [Int.fdiv_one]
    have hlcm2 : lcmPyE I1 (pyRound (I2 : ℚ)) = .ok (Int.lcm I1 I2) := by
      rw [pyRound_intCast]
      exact lcmPyE_pos I1 I2 hI1 hI2
    have hr1 : ((pyRound (I1 : ℚ) : ℤ) : ℚ) ≠ 0 := by
      rw [pyRound_intCast]; exact hI1ne
    have hr2 : ((pyRound (I2 : ℚ) : ℤ) : ℚ) ≠ 0 := by
      rw [pyRound_intCast]; exact hI2ne
    simp only [combineParallel, bind, Except.bind, List.map, h1, h2,
      List.foldlM, if_pos hI1ne, if_pos hI2ne, hlcm1, hlcm2,
      if_neg hr1, if_neg hr2, pure, Except.pure]
    simp only [Except.ok.injEq, Prod.mk.injEq]
    refine ⟨trivial, trivial, ?_⟩
    rw [pyRound_intCast, pyRound_intCast, zero_add]
    split_ifs with hcase
    · exfalso
      apply ne_of_gt hSpos
      push_cast at hcase
      linarith [hcase]
    · push_cast
      rw [div_div]
      ring
  · have habs : pyAbs (D + (Int.lcm I1 I2 : ℚ) /
        (2 * ((Int.lcm I1 I2 : ℚ) / (I1 : ℚ) + (Int.lcm I1 I2 : ℚ) / (I2 : ℚ))) -
        (D + (Int.lcm I1 I2 : ℚ) /
        (2 * ((Int.lcm I1 I2 : ℚ) / (I1 : ℚ) + (Int.lcm I1 I2 : ℚ) / (I2 : ℚ))))) ≤
        (60 : ℚ) := by rw [pyAbs_eq_abs, sub_self, abs_zero]; norm_num
    have hpos : D + (Int.lcm I1 I2 : ℚ) /
        (2 * ((Int.lcm I1 I2 : ℚ) / (I1 : ℚ) + (Int.lcm I1 I2 : ℚ) / (I2 : ℚ))) > 0 := by
      positivity
    simp only [admitGraph, admitPair, pyMin, admitPairEdges, bind, Except.bind,
      List.foldlM, List.map, List.foldl]
    rw [if_pos (And.intro habs hpos)]
    rfl


/-- One step of the `lcm` fold either raises `ZeroDivisionError` or
succeeds. -/
theorem lcmPyE_cases (a b : ℤ) :
    lcmPyE a b = .error .zeroDivision ∨ ∃ v, lcmPyE a b = .ok v := by
  unfold lcmPyE
  split_ifs
  · exact Or.inl rfl
  · exact Or.inr ⟨_, rfl⟩

/-- The `lcm` fold of the combination either raises `ZeroDivisionError` or
succeeds. -/
theorem lcm_fold_cases : ∀ (ws : List ℚ) (acc : ℤ),
    ws.foldlM (fun acc x => if x ≠ 0 then lcmPyE acc (pyRound x)
      else .ok acc) acc = (.error .zeroDivision : Except PyErr ℤ) ∨
    ∃ v, ws.foldlM (fun acc x => if x ≠ 0 then lcmPyE acc (pyRound x)
      else .ok acc) acc = .ok v := by
  intro ws
  induction ws with
  | nil => intro acc; exact Or.inr ⟨acc, rfl⟩
  | cons y t ih =>
    intro acc
    rw [List.foldlM_cons]
    by_cases hy : y ≠ 0
    · rw [if_pos hy]
      rcases lcmPyE_cases acc (pyRound y) with herr | ⟨v, hok⟩
      · rw [herr]
        exact Or.inl rfl
      · rw [hok]
        simp only [bind, Except.bind]
        exact ih v
    · rw [if_neg hy]
      simp only [bind, Except.bind]
      exact ih acc

/-- The interval-sum fold raises `ZeroDivisionError` whenever some nonzero
member rounds to 0. -/
theorem sum_fold_error (L : ℤ) : ∀ (ws : List ℚ) (acc : ℚ),
    (∃ x ∈ ws, x ≠ 0 ∧ pyRound x = 0) →
    ws.foldlM (fun acc x =>
      if x ≠ 0 then
        if ((pyRound x : ℤ) : ℚ) = 0 then .error .zeroDivision
        else .ok (acc + (L : ℚ) / ((pyRound x : ℤ) : ℚ))
      else .ok acc) acc = (.error .zeroDivision : Except PyErr ℚ) := by
  intro ws
  induction ws with
  | nil =>
    intro acc h
    obtain ⟨x, hx, -⟩ := h
    exact absurd hx (List.not_mem_nil x)
  | cons y t ih =>
    intro acc h
    obtain ⟨x, hx, hxne, hxr⟩ := h
    rw [List.foldlM_cons]
    by_cases hy : y ≠ 0
    · rw [if_pos hy]
      by_cases hyr : ((pyRound y : ℤ) : ℚ) = 0
      · rw [if_pos hyr]
        rfl
      · rw [if_neg hyr]
        simp only [bind, Except.bind]
        apply ih
        rcases List.mem_cons.1 hx with rfl | hx'
        · exact absurd (by rw [hxr]; norm_num) hyr
        · exact ⟨x, hx', hxne, hxr⟩
    · rw [if_neg hy]
      simp only [bind, Except.bind]
      apply ih
      rcases List.mem_cons.1 hx with rfl | hx'
      · exact absurd hxne (not_not.2 (not_not.1 hy))
      · exact ⟨x, hx', hxne, hxr⟩

/-- The `lcm` fold succeeds with a positive value when every nonzero member
rounds to a positive integer. -/
theorem lcm_fold_pos : ∀ (ws : List ℚ) (acc : ℤ), 1 ≤ acc →
    (∀ x ∈ ws, x ≠ 0 → 1 ≤ pyRound x) →
    ∃ v, 1 ≤ v ∧ ws.foldlM (fun acc x => if x ≠ 0 then lcmPyE acc (pyRound x)
      else .ok acc) acc = .ok v := by
  intro ws
  induction ws with
  | nil => intro acc hacc _; exact ⟨acc, hacc, rfl⟩
  | cons y t ih =>
    intro acc hacc hys
    rw [List.foldlM_cons]
    by_cases hy : y ≠ 0
    · rw [if_pos hy, lcmPyE_pos acc (pyRound y) hacc
        (hys y (List.mem_cons_self y t) hy)]
      simp only [bind, Except.bind]
      apply ih
      · exact_mod_cast one_le_int_lcm acc (pyRound y) hacc
          (hys y (List.mem_cons_self y t) hy)
      · exact fun x hx => hys x (List.mem_cons_of_mem y hx)
    · rw [if_neg hy]
      simp only [bind, Except.bind]
      exact ih acc hacc (fun x hx => hys x (List.mem_cons_of_mem y hx))

/-- The interval-sum fold succeeds when every nonzero member rounds to a
positive integer. -/
theorem sum_fold_ok (L : ℤ) : ∀ (ws : List ℚ) (acc : ℚ),
    (∀ x ∈ ws, x ≠ 0 → 1 ≤ pyRound x) →
    ∃ v : ℚ, ws.foldlM (fun acc x =>
      if x ≠ 0 then
        if ((pyRound x : ℤ) : ℚ) = 0 then (.error .zeroDivision : Except PyErr ℚ)
        else .ok (acc + (L : ℚ) / ((pyRound x : ℤ) : ℚ))
      else .ok acc) acc = .ok v := by
  intro ws
  induction ws with
  | nil => intro acc _; exact ⟨acc, rfl⟩
  | cons y t ih =>
    intro acc hys
    rw [List.foldlM_cons]
    by_cases hy : y ≠ 0
    · have h1 : (1 : ℤ) ≤ pyRound y := hys y (List.mem_cons_self y t) hy
      have hyr : ((pyRound y : ℤ) : ℚ) ≠ 0 := by
        have h2 : (0 : ℚ) < ((pyRound y : ℤ) : ℚ) := by exact_mod_cast h1
        exact ne_of_gt h2
      rw [if_pos hy, if_neg hyr]
      simp only [bind, Except.bind]
      exact ih _ (fun x hx => hys x (List.mem_cons_of_mem y hx))
    · rw [if_neg hy]
      simp only [bind, Except.bind]
      exact ih acc (fun x hx => hys x (List.mem_cons_of_mem y hx))

/-- **C9.** The WAITING-mode parallel combination divides by
`round(interval)` under a guard of `interval != 0` only: a station pair
with a surviving record whose interval `w` satisfies `0 < w < 0.5` (so
`round(w) = 0`) makes the combination raise `ZeroDivisionError`; and the
combination succeeds whenever every nonzero interval rounds to an integer
at least 1. -/
theorem C9_interval_rounding (dur_tup : List WRec)
    (walking : Option (ℚ × String)) :
    (∀ (d w : ℚ) (r : String) (minD : ℚ),
      (⟨d, w, r⟩ : WRec) ∈ dur_tup →
      pyMin (dur_tup.map (fun x => x.dur)) = .ok minD →
      |d - minD| ≤ 60 → 0 < w → w < 1 / 2 →
      combineParallel dur_tup walking = .error .zeroDivision) ∧
    (dur_tup ≠ [] → (∀ x ∈ dur_tup, x.wait ≠ 0 → 1 ≤ pyRound x.wait) →
      ∃ v, combineParallel dur_tup walking = .ok v) := by
  constructor
  · intro d w r minD hmem hmin habs h0 h12
    have hwmem : w ∈ (dur_tup.filter
        (fun x => pyAbs (x.dur - minD) ≤ 60)).map (fun x => x.wait) := by
      refine List.mem_map.2 ⟨⟨d, w, r⟩, ?_, rfl⟩
      exact List.mem_filter.2 ⟨hmem, by simpa [pyAbs_eq_abs] using habs⟩
    have hbad : ∃ x ∈ (dur_tup.filter
        (fun x => pyAbs (x.dur - minD) ≤ 60)).map (fun x => x.wait),
        x ≠ 0 ∧ pyRound x = 0 :=
      ⟨w, hwmem, ne_of_gt h0, pyRound_eq_zero h0 h12⟩
    rcases lcm_fold_cases ((dur_tup.filter
        (fun x => pyAbs (x.dur - minD) ≤ 60)).map (fun x => x.wait)) 1 with
      herr | ⟨v1, hok⟩
    · simp only [combineParallel, bind, Except.bind, hmin, herr]
    · simp only [combineParallel, bind, Except.bind, hmin, hok,
        sum_fold_error v1 _ 0 hbad]
  · intro hne hys
    obtain ⟨minD, hmin⟩ : ∃ m, pyMin (dur_tup.map (fun x => x.dur)) = .ok m := by
      cases dur_tup with
      | nil => exact absurd rfl hne
      | cons a t => exact ⟨_, rfl⟩
    have hys' : ∀ x ∈ (dur_tup.filter
        (fun x => pyAbs (x.dur - minD) ≤ 60)).map (fun x => x.wait),
        x ≠ 0 → 1 ≤ pyRound x := by
      intro x hx hxne
      obtain ⟨rec, hrec, hrecx⟩ := List.mem_map.1 hx
      exact hrecx ▸ hys rec (List.mem_of_mem_filter hrec) (hrecx ▸ hxne)
    obtain ⟨v1, -, hok1⟩ := lcm_fold_pos ((dur_tup.filter
        (fun x => pyAbs (x.dur - minD) ≤ 60)).map (fun x => x.wait)) 1
      (le_refl 1) hys'
    obtain ⟨v2, hok2⟩ := sum_fold_ok v1 ((dur_tup.filter
        (fun x => pyAbs (x.dur - minD) ≤ 60)).map (fun x => x.wait)) 0 hys'
    refine ⟨((match walking with
        | some wk => if pyAbs (wk.1 - minD) ≤ 60 then
            ((dur_tup.filter (fun x => pyAbs (x.dur - minD) ≤ 60)).map
              (fun x => x.route)) ++ [wk.2]
          else (dur_tup.filter (fun x => pyAbs (x.dur - minD) ≤ 60)).map
            (fun x => x.route)
        | none => (dur_tup.filter (fun x => pyAbs (x.dur - minD) ≤ 60)).map
            (fun x => x.route)), minD,
      (if v2 = 0 then 0 else (v1 : ℚ) / v2 / 2)), ?_⟩
    simp only [combineParallel, bind, Except.bind, hmin, hok1, hok2, pure,
      Except.pure]

/-- Witness for C9: a surviving record with interval `1/4` triggers
`ZeroDivisionError`, while intervals rounding to at least 1 succeed. -/
theorem C9_interval_rounding_witness :
    ((⟨100, 1 / 4, "R1"⟩ : WRec) ∈ [(⟨100, 1 / 4, "R1"⟩ : WRec)] ∧
      combineParallel [⟨100, 1 / 4, "R1"⟩] none = .error .zeroDivision) ∧
    (∃ v, combineParallel [(⟨100, 200, "R1"⟩ : WRec)] none = .ok v) := by
  constructor
  · refine ⟨List.mem_singleton.2 rfl, ?_⟩
    exact (C9_interval_rounding [⟨100, 1 / 4, "R1"⟩] none).1 100 (1 / 4) "R1" 100
      (List.mem_singleton.2 rfl) rfl (by norm_num) (by norm_num) (by norm_num)
  · refine (C9_interval_rounding [⟨100, 200, "R1"⟩] none).2 (by simp) ?_
    intro x hx hxne
    rw [List.mem_singleton.1 hx]
    show (1 : ℤ) ≤ pyRound ((200 : ℚ))
    rw [show (200 : ℚ) = ((200 : ℤ) : ℚ) by norm_num, pyRound_intCast]
    norm_num

/-- Witness for C4: durations 100 with intervals 200 and 300 combine to
the waiting value 60 given by the lcm formula. -/
theorem C4_parallel_combination_witness :
    combineParallel [⟨100, ((200 : ℤ) : ℚ), "R1"⟩, ⟨100, ((300 : ℤ) : ℚ), "R2"⟩]
      none = .ok (["R1", "R2"], 100, 60) := by
  obtain ⟨W, hWeq, hcomb, -⟩ :=
    C4_parallel_combination "A" "B" 100 200 300 "R1" "R2" (by norm_num)
      (by norm_num) (by norm_num)
  have hW : W = 60 := by
    rw [hWeq]
    norm_num [Int.lcm]
  rw [← hW]
  exact hcomb

/-! ### Cache filenames and cache loading (C7, C8) -/

/-- Python `int(bool_)` rendered into an f-string: `"1"` or `"0"`. -/
def b01 (b : Bool) : String := if b then "1" else "0"

/-- `__version__` of mtr_pathfinder_lib (mtr_pathfinder_v4.py). -/
def MTR_LIB_VERSION : String := "130"

/-- Graph-cache filename built by `create_graph`
(mtr_pathfinder.py, lines 609–611):
`f'mtr_pathfinder_temp{os.sep}' + f'3{HS}{WW}' + f'-{version1}-{version2}-{md5}.dat'`. -/
def graph_cache_filename (hs ww : Bool) (v1 v2 md5 : String) : String :=
  "mtr_pathfinder_temp/" ++ "3" ++ b01 hs ++ b01 ww ++ "-" ++ v1 ++ "-" ++
    v2 ++ "-" ++ md5 ++ ".dat"

/-- The graph-cache filename shape stated by the spec (§6.3):
`3<HS><WW>-<version1>-<version2>-<md5>-<engine_ver>.dat`.  This definition
follows the spec's words, for comparison with `graph_cache_filename`. -/
def spec_graph_cache_filename (hs ww : Bool) (v1 v2 md5 engine_ver : String) :
    String :=
  "mtr_pathfinder_temp/" ++ "3" ++ b01 hs ++ b01 ww ++ "-" ++ v1 ++ "-" ++
    v2 ++ "-" ++ md5 ++ "-" ++ engine_ver ++ ".dat"

/-- Timetable-cache filename built by `gen_timetable`
(mtr_pathfinder_v4.py, lines 533–535): it does end with `-{__version__}`. -/
def tt_cache_filename (hs ww : Bool) (v1 v2 md5 : String) : String :=
  "mtr_pathfinder_temp/" ++ "4" ++ b01 hs ++ b01 ww ++ "-" ++ v1 ++ "-" ++
    v2 ++ "-" ++ md5 ++ "-" ++ MTR_LIB_VERSION ++ ".dat"

/-- The graph-cache eligibility test of `create_graph`
(mtr_pathfinder.py, lines 603–605). -/
def graph_cache_eligible (cache : Bool) (ignored orig : List String)
    (calc_boat only_lrt : Bool) (avoid : List String) (is_waiting : Bool) :
    Bool :=
  cache && decide (ignored = orig) && calc_boat && !only_lrt &&
    decide (avoid = ([] : List String)) && is_waiting

/-- Counterexample for C7: with both booleans set, mtimes `"100"`/`"200"`
and md5 `"d41d"`, the filename written by `create_graph` carries no engine
version tag, unlike the shape `3<HS><WW>-<v1>-<v2>-<md5>-<engine_ver>.dat`
claimed by the spec (here instantiated with the library version `"130"`). -/
theorem C7_counterexample :
    graph_cache_filename true true "100" "200" "d41d" =
      "mtr_pathfinder_temp/311-100-200-d41d.dat" ∧
    graph_cache_filename true true "100" "200" "d41d" ≠
      spec_graph_cache_filename true true "100" "200" "d41d" "130" := by
  constructor
  · rfl
  · decide

/-- **C7 (amended).** Under the eligibility conditions, `create_graph`
serialises to a filename encoding the protocol-major `3`, the two booleans,
the two data mtimes and the md5 — but no engine version tag: for every
engine tag the spec's shape differs from the written name (the timetable
cache, by contrast, does append `-{__version__}`). -/
theorem C7_graph_cache_name (cache : Bool) (ignored orig : List String)
    (boat lrt wmode : Bool) (avoid : List String)
    (hs ww : Bool) (v1 v2 md5 ver : String) :
    (graph_cache_eligible cache ignored orig boat lrt avoid wmode = true →
      cache = true ∧ ignored = orig ∧ boat = true ∧ lrt = false ∧
        avoid = [] ∧ wmode = true) ∧
    graph_cache_filename hs ww v1 v2 md5 =
      "mtr_pathfinder_temp/3" ++ b01 hs ++ b01 ww ++ "-" ++ v1 ++ "-" ++
        v2 ++ "-" ++ md5 ++ ".dat" ∧
    spec_graph_cache_filename hs ww v1 v2 md5 ver ≠
      graph_cache_filename hs ww v1 v2 md5 ∧
    tt_cache_filename hs ww v1 v2 md5 =
      "mtr_pathfinder_temp/4" ++ b01 hs ++ b01 ww ++ "-" ++ v1 ++ "-" ++
        v2 ++ "-" ++ md5 ++ "-" ++ MTR_LIB_VERSION ++ ".dat" := by
  refine ⟨?_, ?_, ?_, ?_⟩
  · intro h
    simp only [graph_cache_eligible, Bool.and_eq_true, decide_eq_true_eq,
      Bool.not_eq_true'] at h
    exact ⟨h.1.1.1.1.1, h.1.1.1.1.2, h.1.1.1.2, h.1.1.2, h.1.2, h.2⟩
  · rfl
  · intro h
    have hlen := congrArg String.length h
    have hd : ("-" : String).length = 1 := rfl
    simp only [spec_graph_cache_filename, graph_cache_filename,
      String.length_append, hd] at hlen
    omega
  · rfl

/-- Witness for C7 at concrete inputs: eligibility decomposes and the
names evaluate as stated. -/
theorem C7_graph_cache_name_witness :
    graph_cache_eligible true ["l"] ["l"] true false [] true = true ∧
    (graph_cache_filename false true "7" "8" "m" =
      "mtr_pathfinder_temp/301-7-8-m.dat" ∧
    spec_graph_cache_filename false true "7" "8" "m" "130" ≠
      graph_cache_filename false true "7" "8" "m") := by
  refine ⟨by decide, ?_, ?_⟩
  · exact (C7_graph_cache_name true ["l"] ["l"] true false true []
      false true "7" "8" "m" "130").2.1
  · exact (C7_graph_cache_name true ["l"] ["l"] true false true []
      false true "7" "8" "m" "130").2.2.1

/-- State of a cache file on disk: absent, present but not deserialisable,
or present with good contents. -/
inductive CacheFile (α : Type) where
  | absent : CacheFile α
  | corrupt : CacheFile α
  | good : α → CacheFile α

/-- Cache read of `create_graph` (mtr_pathfinder.py, lines 612–618): when
the file exists, `pickle.load` runs with no `try`/`except`, so a corrupted
file raises `UnpicklingError` to the caller; only an absent file falls
through to the build. -/
def create_graph_cache_read {α : Type} (file : CacheFile α) (build : α) :
    Except PyErr α :=
  match file with
  | .absent => .ok build
  | .corrupt => .error .unpicklingError
  | .good g => .ok g

/-- Cache read of `gen_timetable` (mtr_pathfinder_v4.py, lines 537–542):
same shape, `pickle.load` on the mmapped file is unguarded. -/
def gen_timetable_cache_read {α : Type} (file : CacheFile α) (build : α) :
    Except PyErr α :=
  match file with
  | .absent => .ok build
  | .corrupt => .error .unpicklingError
  | .good g => .ok g

/-- Counterexample for C8: a corrupt cache file makes both loaders raise
`UnpicklingError`; neither falls back to the freshly built artifact. -/
theorem C8_counterexample :
    create_graph_cache_read (CacheFile.corrupt : CacheFile Nat) 7 =
      .error .unpicklingError ∧
    create_graph_cache_read (CacheFile.corrupt : CacheFile Nat) 7 ≠ .ok 7 ∧
    gen_timetable_cache_read (CacheFile.corrupt : CacheFile Nat) 7 =
      .error .unpicklingError ∧
    gen_timetable_cache_read (CacheFile.corrupt : CacheFile Nat) 7 ≠ .ok 7 := by
  refine ⟨rfl, ?_, rfl, ?_⟩ <;> intro h <;> exact Except.noConfusion h

/-- **C8 (amended).** `create_graph` and `gen_timetable` treat only an
*absent* cache file as a miss: they return the cached value when the file
deserialises, rebuild when it is absent, and propagate the deserialisation
error — rather than rebuilding — when the file is corrupt. -/
theorem C8_cache_corruption (g b : Nat) :
    create_graph_cache_read (CacheFile.good g) b = .ok g ∧
    create_graph_cache_read (CacheFile.absent : CacheFile Nat) b = .ok b ∧
    create_graph_cache_read (CacheFile.corrupt : CacheFile Nat) b =
      .error .unpicklingError ∧
    gen_timetable_cache_read (CacheFile.good g) b = .ok g ∧
    gen_timetable_cache_read (CacheFile.absent : CacheFile Nat) b = .ok b ∧
    gen_timetable_cache_read (CacheFile.corrupt : CacheFile Nat) b =
      .error .unpicklingError :=
  ⟨rfl, rfl, rfl, rfl, rfl, rfl⟩

set_option maxRecDepth 100000 in
/-- Counterexample for C3.  (i) A pair whose only record has weight 0 is
admitted into `edges_attr_dict` but keeps no edge (the kept set is empty);
(ii) with records of weights 0 and 30 for one pair, the minimum kept weight
is 30 while the minimum admitted weight is 0; (iii) after the wild-walking
pass a rail edge of weight 500 coexists with a walk edge of weight 400 on
the same pair, violating the 60-second prune bound on the final graph. -/
theorem C3_counterexample :
    createGraphCD [(("A", "B"), [(Label.single "r1", (0 : ℚ), (0 : ℚ))])]
      false [] [] [] 0 (fun _ => "W") = .ok [] ∧
    (pyMin ([(Label.single "r1", (0 : ℚ), (0 : ℚ)),
        (Label.single "r2", (30 : ℚ), (0 : ℚ))].map
        (fun r => r.2.1 + r.2.2)) = .ok 0 ∧
      createGraphCD [(("A", "B"), [(Label.single "r1", (0 : ℚ), (0 : ℚ)),
          (Label.single "r2", (30 : ℚ), (0 : ℚ))])]
        false [] [] [] 0 (fun _ => "W") =
        .ok [(("A", "B"), [⟨0, 30, Label.single "r2", 0⟩])]) ∧
    (createGraphCD [(("A", "B"), [(Label.single "rail", (500 : ℚ), (0 : ℚ))])]
        true [("A", some ((0 : ℚ), (0 : ℚ))), ("B", some ((900 : ℚ), (0 : ℚ)))]
        [] [] 1500 (fun _ => "W") =
      .ok [(("A", "B"), [⟨0, 500, Label.single "rail", 0⟩,
                         ⟨1, 400, Label.single "W", 0⟩]),
           (("B", "A"), [⟨0, 400, Label.single "W", 0⟩])] ∧
      ¬ ((500 : ℚ) ≤ 400 + 60)) := by
  refine ⟨by with_unfolding_all rfl,
    ⟨by with_unfolding_all rfl, by with_unfolding_all rfl⟩,
    ⟨by with_unfolding_all rfl, by norm_num⟩⟩

/-- The kept edges' weights are exactly the admitted weights that pass the
`|weight - min| <= 60 and weight > 0` test, in order. -/
theorem map_weight_admitPairEdges (m : ℚ) :
    ∀ (recs : List (Label × ℚ × ℚ)) (k : Nat),
    (admitPairEdges m recs k).map (fun e => e.weight) =
      (recs.map (fun r => r.2.1 + r.2.2)).filter
        (fun w => decide (pyAbs (w - m) ≤ 60 ∧ w > 0)) := by
  intro recs
  induction recs with
  | nil => intro k; rfl
  | cons r rest ih =>
    intro k
    rw [admitPairEdges, List.map_cons, List.filter_cons]
    by_cases h : pyAbs (r.2.1 + r.2.2 - m) ≤ 60 ∧ r.2.1 + r.2.2 > 0
    · rw [if_pos h, List.map_cons, ih (k + 1), if_pos (by simpa using h)]
    · rw [if_neg h, ih k, if_neg (by simpa using h)]

/-- A kept edge's weight is an admitted weight within the bound and
positive. -/
theorem admitPairEdges_weight_mem {m : ℚ} {recs : List (Label × ℚ × ℚ)}
    {k : Nat} {e : EdgeAttr} (he : e ∈ admitPairEdges m recs k) :
    e.weight ∈ recs.map (fun r => r.2.1 + r.2.2) ∧
      pyAbs (e.weight - m) ≤ 60 ∧ e.weight > 0 := by
  have hw : e.weight ∈ (admitPairEdges m recs k).map (fun e => e.weight) :=
    List.mem_map.2 ⟨e, he, rfl⟩
  rw [map_weight_admitPairEdges] at hw
  obtain ⟨hmem, hpred⟩ := List.mem_filter.1 hw
  exact ⟨hmem, by simpa using hpred⟩

/-- Any positive admitted weight equal to the minimum is kept. -/
theorem admitPairEdges_attain {m : ℚ} {recs : List (Label × ℚ × ℚ)} (k : Nat)
    (hm : m ∈ recs.map (fun r => r.2.1 + r.2.2)) (hmpos : 0 < m) :
    ∃ e ∈ admitPairEdges m recs k, e.weight = m := by
  have hpred : decide (pyAbs (m - m) ≤ 60 ∧ m > 0) = true := by
    simp only [decide_eq_true_eq]
    refine ⟨?_, hmpos⟩
    rw [sub_self, pyAbs_eq_abs, abs_zero]
    norm_num
  have hmem : m ∈ (admitPairEdges m recs k).map (fun e => e.weight) := by
    rw [map_weight_admitPairEdges]
    exact List.mem_filter.2 ⟨hm, hpred⟩
  obtain ⟨e, he, hew⟩ := List.mem_map.1 hmem
  exact ⟨e, he, hew⟩

/-- `foldl min` lands in the list. -/
theorem foldl_min_mem : ∀ (t : List ℚ) (a : ℚ), t.foldl min a ∈ a :: t := by
  intro t
  induction t with
  | nil => intro a; exact List.mem_singleton.2 rfl
  | cons b rest ih =>
    intro a
    rw [List.foldl_cons]
    rcases List.mem_cons.1 (ih (min a b)) with h | h
    · rw [h]
      rcases min_choice a b with hm | hm
      · rw [hm]; exact List.mem_cons_self a (b :: rest)
      · rw [hm]; exact List.mem_cons_of_mem a (List.mem_cons_self b rest)
    · exact List.mem_cons_of_mem a (List.mem_cons_of_mem b h)

/-- `foldl min` is a lower bound. -/
theorem foldl_min_le : ∀ (t : List ℚ) (a x : ℚ), x ∈ a :: t →
    t.foldl min a ≤ x := by
  intro t
  induction t with
  | nil =>
    intro a x hx
    rw [List.foldl_nil]
    exact le_of_eq (List.mem_singleton.1 hx).symm
  | cons b rest ih =>
    intro a x hx
    rw [List.foldl_cons]
    have hbase : List.foldl min (min a b) rest ≤ min a b :=
      ih (min a b) (min a b) (List.mem_cons_self _ rest)
    rcases List.mem_cons.1 hx with heq | hx'
    · rw [heq]
      exact le_trans hbase (min_le_left a b)
    · rcases List.mem_cons.1 hx' with heq2 | hx''
      · rw [heq2]
        exact le_trans hbase (min_le_right a b)
      · exact ih (min a b) x (List.mem_cons_of_mem _ hx'')

/-- `min` of a Python list: a member and a lower bound. -/
theorem pyMin_spec {l : List ℚ} {m : ℚ} (h : pyMin l = .ok m) :
    m ∈ l ∧ ∀ x ∈ l, m ≤ x := by
  cases l with
  | nil => exact absurd h (by rw [pyMin]; intro hc; exact Except.noConfusion hc)
  | cons a t =>
    rw [pyMin, Except.ok.injEq] at h
    exact ⟨h ▸ foldl_min_mem t a, fun x hx => h ▸ foldl_min_le t a x hx⟩

/-- The admission fold of `admitGraph`, from any accumulator: it succeeds,
appends one entry per admitted pair with a nonempty kept set, and every
appended entry is the kept set of its pair's records. -/
theorem admitGraph_go :
    ∀ (attrs : List ((String × String) × List (Label × ℚ × ℚ))) (g0 : Graph),
    (∀ p ∈ attrs, p.2 ≠ []) →
    (∀ p ∈ attrs, ∀ r ∈ p.2, 0 < r.2.1 + r.2.2) →
    ∃ G' : Graph,
      attrs.foldlM (fun g e => do
        let es ← admitPair e.2
        .ok (if es.isEmpty then g else g ++ [(e.1, es)])) g0 = .ok (g0 ++ G') ∧
      (∀ q ∈ G', ∃ recs minD, (q.1, recs) ∈ attrs ∧
        pyMin (recs.map (fun r => r.2.1 + r.2.2)) = .ok minD ∧
        q.2 = admitPairEdges minD recs 0) ∧
      (∀ p ∈ attrs, ∃ es, (p.1, es) ∈ G' ∧ es ≠ ([] : List EdgeAttr)) := by
  intro attrs
  induction attrs with
  | nil =>
    intro g0 _ _
    refine ⟨[], ?_, fun q hq => absurd hq (List.not_mem_nil q),
      fun p hp => absurd hp (List.not_mem_nil p)⟩
    rw [List.foldlM_nil, List.append_nil]
    rfl
  | cons e rest ih =>
    intro g0 hne hpos
    obtain ⟨minD, hmin⟩ : ∃ m, pyMin (e.2.map (fun r => r.2.1 + r.2.2)) =
        .ok m := by
      rcases he2 : e.2 with _ | ⟨a, t⟩
      · exact absurd he2 (hne e (List.mem_cons_self e rest))
      · exact ⟨_, rfl⟩
    have hadm : admitPair e.2 = .ok (admitPairEdges minD e.2 0) := by
      rw [admitPair]
      simp only [bind, Except.bind, hmin]
    have hminpos : 0 < minD := by
      obtain ⟨hmem, -⟩ := pyMin_spec hmin
      obtain ⟨r, hr, hrw⟩ := List.mem_map.1 hmem
      exact hrw ▸ hpos e (List.mem_cons_self e rest) r hr
    obtain ⟨e0, he0, -⟩ := admitPairEdges_attain 0 (pyMin_spec hmin).1 hminpos
    have hkne : admitPairEdges minD e.2 0 ≠ [] := List.ne_nil_of_mem he0
    have hkemp : (admitPairEdges minD e.2 0).isEmpty = false := by
      rcases hk : admitPairEdges minD e.2 0 with _ | ⟨x, xs⟩
      · exact absurd hk hkne
      · rfl
    obtain ⟨G'', hfold, hq, hp⟩ := ih (g0 ++ [(e.1, admitPairEdges minD e.2 0)])
      (fun p hp => hne p (List.mem_cons_of_mem e hp))
      (fun p hp => hpos p (List.mem_cons_of_mem e hp))
    refine ⟨(e.1, admitPairEdges minD e.2 0) :: G'', ?_, ?_, ?_⟩
    · rw [List.foldlM_cons]
      simp only [hadm, bind, Except.bind]
      rw [if_neg (show ¬ ((admitPairEdges minD e.2 0).isEmpty = true) by
        rw [hkemp]; exact Bool.false_ne_true)]
      refine Eq.trans hfold ?_
      rw [List.append_assoc]
      rfl
    · intro q hq'
      rcases List.mem_cons.1 hq' with heq | hq''
      · refine ⟨e.2, minD, ?_, hmin, ?_⟩
        · rw [heq]
          exact List.mem_cons_self e rest
        · rw [heq]
      · obtain ⟨recs, m, hmem, hm, hk⟩ := hq q hq''
        exact ⟨recs, m, List.mem_cons_of_mem e hmem, hm, hk⟩
    · intro p hp'
      rcases List.mem_cons.1 hp' with heq | hp''
      · refine ⟨admitPairEdges minD e.2 0, ?_, hkne⟩
        rw [heq]
        exact List.mem_cons_self _ G''
      · obtain ⟨es, hmemG, hnees⟩ := hp p hp''
        exact ⟨es, List.mem_cons_of_mem _ hmemG, hnees⟩

/-- **C3 (amended).** In the graph produced by the admission pass of
`create_graph`, when every admitted record of every pair has positive total
weight (and every admitted pair has at least one record): every kept edge of
a pair weighs at most 60 seconds above the pair's minimum admitted weight,
that minimum is itself kept (so the minimum kept weight equals the minimum
admitted weight), and the kept set is non-empty for every admitted pair.
The counterexample shows that zero-weight records break all three clauses
and that the wild-walking pass can break the bound on the final graph. -/
theorem C3_prune_bound (attrs : List ((String × String) × List (Label × ℚ × ℚ)))
    (hne : ∀ p ∈ attrs, p.2 ≠ [])
    (hpos : ∀ p ∈ attrs, ∀ r ∈ p.2, 0 < r.2.1 + r.2.2) :
    ∃ G, admitGraph attrs = .ok G ∧
      (∀ q ∈ G, ∃ recs minD, (q.1, recs) ∈ attrs ∧
        pyMin (recs.map (fun r => r.2.1 + r.2.2)) = .ok minD ∧
        q.2 ≠ ([] : List EdgeAttr) ∧
        (∀ e ∈ q.2, minD ≤ e.weight ∧ e.weight ≤ minD + 60) ∧
        (∃ e ∈ q.2, e.weight = minD)) ∧
      (∀ p ∈ attrs, ∃ es, (p.1, es) ∈ G ∧ es ≠ ([] : List EdgeAttr)) := by
  obtain ⟨G', hfold, hq, hp⟩ := admitGraph_go attrs [] hne hpos
  refine ⟨G', ?_, ?_, hp⟩
  · rw [admitGraph, hfold, List.nil_append]
  · intro q hq'
    obtain ⟨recs, minD, hmem, hmin, hkeq⟩ := hq q hq'
    have hminpos : 0 < minD := by
      obtain ⟨hm1, -⟩ := pyMin_spec hmin
      obtain ⟨r, hr, hrw⟩ := List.mem_map.1 hm1
      exact hrw ▸ hpos (q.1, recs) hmem r hr
    obtain ⟨e1, he1, he1w⟩ := admitPairEdges_attain 0 (pyMin_spec hmin).1 hminpos
    refine ⟨recs, minD, hmem, hmin, ?_, ?_, ?_⟩
    · rw [hkeq]
      exact List.ne_nil_of_mem he1
    · intro e he
      rw [hkeq] at he
      obtain ⟨hwmem, hband, hwpos⟩ := admitPairEdges_weight_mem he
      refine ⟨(pyMin_spec hmin).2 e.weight hwmem, ?_⟩
      rw [pyAbs_eq_abs] at hband
      have h2 := (abs_le.1 hband).2
      linarith
    · rw [hkeq]
      exact ⟨e1, he1, he1w⟩

/-- Witness for C3: one admitted pair with a positive record yields a graph
entry with a nonempty kept set. -/
theorem C3_prune_bound_witness :
    ∃ G, admitGraph [(("A", "B"), [(Label.single "r", (100 : ℚ), (0 : ℚ))])] =
      .ok G ∧ ∃ es, (("A", "B"), es) ∈ G ∧ es ≠ ([] : List EdgeAttr) := by
  obtain ⟨G, hok, -, hp⟩ := C3_prune_bound
    [(("A", "B"), [(Label.single "r", (100 : ℚ), (0 : ℚ))])]
    (by intro p hp
        rw [List.mem_singleton.1 hp]
        exact List.cons_ne_nil _ _)
    (by intro p hp r hr
        rw [List.mem_singleton.1 hp] at hr
        rw [List.mem_singleton.1 hr]
        norm_num)
  obtain ⟨es, hmem, hnees⟩ := hp (("A", "B"),
    [(Label.single "r", (100 : ℚ), (0 : ℚ))]) (List.mem_singleton.2 rfl)
  exact ⟨G, hok, es, hmem, hnees⟩

/-! ## The timetable expansion of mtr_pathfinder_v4.py (REALTIME) -/

/-- Python dict lookup on an association list. -/
def assocLookup {κ α : Type} [DecidableEq κ] (l : List (κ × α)) (k : κ) :
    Option α :=
  (l.find? (fun p => decide (p.1 = k))).map (fun p => p.2)

/-- Python dict assignment `d[k] = v` on an association list with unique
keys: overwrite in place or append. -/
def assocSet (l : List (Nat × Int)) (k : Nat) (v : Int) : List (Nat × Int) :=
  if l.any (fun p => decide (p.1 = k)) then
    l.map (fun p => if p.1 = k then (k, v) else p)
  else l ++ [(k, v)]

/-- Stable insertion of a connection into a list sorted by `dep_time`: the
new element goes after all elements with `dep_time ≤` its own, as Python's
stable `sort(key=itemgetter(2))` keeps equal keys in encounter order. -/
def insertByDep (c : Conn) : List Conn → List Conn
  | [] => [c]
  | d :: rest =>
    if d.depTime ≤ c.depTime then d :: insertByDep c rest else c :: d :: rest

/-- `timetable.sort(key=itemgetter(2))`: stable sort by `dep_time`. -/
def sortByDep (l : List Conn) : List Conn :=
  l.foldl (fun acc c => insertByDep c acc) []

/-- `load_tt` (mtr_pathfinder_v4.py, lines 664–760): the per-query
expansion.  Station-name resolution and the transfer tables are parameters:
`resolved` is `some (start_sta_id, end_sta_id)` when both names resolve
(Python returns `[]` otherwise), and `origin_walks` / `wild_walks` hold the
`(target sta_id, rounded walk seconds, label)` triples produced by the two
origin-transfer loops.  Each timetable entry carries a template connection;
`terminus ≠ ""` (`_t[4][1] != ''`) marks ride entries, which get the
running `trip_no` and populate the per-trip `{station → dep_time}` map. -/
def load_tt (tt_dict : List (String × List Conn))
    (dep_data : List (String × List Int))
    (resolved : Option (Nat × Nat))
    (origin_walks : List (Nat × Int × String))
    (calculate_walking_wild : Bool)
    (wild_walks : List (Nat × Int × String))
    (departure_time : Int) (MAX_HOUR : Int) :
    Option (List Conn × List (Nat × List (Nat × Int))) :=
  match resolved with
  | none => none
  | some (ss, _es) =>
    let tt0 : List Conn := origin_walks.map (fun w =>
      ⟨ss, w.1, departure_time, departure_time + w.2.1, ⟨w.2.2, "", none⟩,
        none⟩)
    let tt1 : List Conn :=
      if calculate_walking_wild then
        tt0 ++ wild_walks.map (fun w =>
          ⟨ss, w.1, departure_time, departure_time + w.2.1, ⟨w.2.2, "", none⟩,
            none⟩)
      else tt0
    let max_time := departure_time + MAX_HOUR * 60 * 60
    let r := dep_data.foldl
      (fun (acc : List Conn × List (Nat × List (Nat × Int)) × Nat) rd =>
        match assocLookup tt_dict rd.1 with
        | none => acc
        | some tt =>
          let departures := if max_time > 86400 then
              rd.2 ++ (rd.2.filter (fun x => x ≤ max_time - 86400)).map
                (fun x => x + 86400)
            else rd.2
          (departures.takeWhile (fun d => d < max_time)).foldl
            (fun acc2 departure =>
              let inner := tt.foldl
                (fun (p : List Conn × List (Nat × Int)) t =>
                  let d2 := t.depTime + departure
                  let d3 := if d2 < 0 then t.arrTime + departure + 86400
                    else t.arrTime + departure
                  let d2 := if d2 < 0 then d2 + 86400 else d2
                  if max_time - 86400 < d2 ∧ d2 < departure_time then p
                  else if t.detail.terminus ≠ "" then
                    (p.1 ++ [⟨t.dep, t.arr, d2, d3, t.detail, some acc2.2.2⟩],
                     assocSet p.2 t.dep d2)
                  else (p.1 ++ [⟨t.dep, t.arr, d2, d3, t.detail, none⟩], p.2))
                ([], [])
              (acc2.1 ++ inner.1, acc2.2.1 ++ [(acc2.2.2, inner.2)],
                acc2.2.2 + 1))
            acc)
      (tt1, [], 0)
    some (sortByDep r.1, r.2.1)

/-- Membership in a stable insertion. -/
theorem mem_insertByDep {x c : Conn} : ∀ {l : List Conn},
    x ∈ insertByDep c l → x = c ∨ x ∈ l := by
  intro l
  induction l with
  | nil =>
    intro hx
    exact Or.inl (List.mem_singleton.1 hx)
  | cons d rest ih =>
    intro hx
    rw [insertByDep] at hx
    by_cases h : d.depTime ≤ c.depTime
    · rw [if_pos h] at hx
      rcases List.mem_cons.1 hx with heq | hx'
      · exact Or.inr (heq ▸ List.mem_cons_self d rest)
      · rcases ih hx' with h1 | h2
        · exact Or.inl h1
        · exact Or.inr (List.mem_cons_of_mem d h2)
    · rw [if_neg h] at hx
      rcases List.mem_cons.1 hx with heq | hx'
      · exact Or.inl heq
      · exact Or.inr hx'

/-- Stable insertion preserves sortedness by `dep_time`. -/
theorem insertByDep_pairwise (c : Conn) : ∀ {l : List Conn},
    l.Pairwise (fun a b => a.depTime ≤ b.depTime) →
    (insertByDep c l).Pairwise (fun a b => a.depTime ≤ b.depTime) := by
  intro l
  induction l with
  | nil =>
    intro _
    exact List.pairwise_singleton _ c
  | cons d rest ih =>
    intro hp
    obtain ⟨hd, hrest⟩ := List.pairwise_cons.1 hp
    rw [insertByDep]
    by_cases h : d.depTime ≤ c.depTime
    · rw [if_pos h]
      refine List.pairwise_cons.2 ⟨?_, ih hrest⟩
      intro x hx
      rcases mem_insertByDep hx with heq | hx'
      · exact heq ▸ h
      · exact hd x hx'
    · rw [if_neg h]
      refine List.pairwise_cons.2 ⟨?_, hp⟩
      intro x hx
      rcases List.mem_cons.1 hx with heq | hx'
      · exact heq ▸ le_of_lt (lt_of_not_le h)
      · exact le_trans (le_of_lt (lt_of_not_le h)) (hd x hx')

/-- The stable sort of `load_tt` returns a list sorted by `dep_time`. -/
theorem sortByDep_sorted_go : ∀ (l : List Conn) (acc : List Conn),
    acc.Pairwise (fun a b => a.depTime ≤ b.depTime) →
    (l.foldl (fun acc c => insertByDep c acc) acc).Pairwise
      (fun a b => a.depTime ≤ b.depTime) := by
  intro l
  induction l with
  | nil => intro acc h; exact h
  | cons c rest ih =>
    intro acc h
    rw [List.foldl_cons]
    exact ih (insertByDep c acc) (insertByDep_pairwise c h)

/-- `sortByDep` output is sorted by `dep_time`. -/
theorem sortByDep_sorted (l : List Conn) :
    (sortByDep l).Pairwise (fun a b => a.depTime ≤ b.depTime) :=
  sortByDep_sorted_go l [] (List.Pairwise.nil)

/-- **C5.** Every per-query expansion returned by `load_tt` — for any
timetable dictionary, departure tables, resolution outcome, origin walks,
departure time and horizon — is sorted in ascending `dep_time` order: for
all indices `i < j`, `connections[i].dep_time ≤ connections[j].dep_time`. -/
theorem C5_sorted_connections (tt_dict : List (String × List Conn))
    (dep_data : List (String × List Int)) (resolved : Option (Nat × Nat))
    (origin_walks : List (Nat × Int × String)) (cww : Bool)
    (wild_walks : List (Nat × Int × String)) (dt mh : Int)
    (tt : List Conn) (trips : List (Nat × List (Nat × Int)))
    (h : load_tt tt_dict dep_data resolved origin_walks cww wild_walks dt mh =
      some (tt, trips)) :
    ∀ (i j : Nat) (hi : i < tt.length) (hj : j < tt.length), i < j →
      (tt.get ⟨i, hi⟩).depTime ≤ (tt.get ⟨j, hj⟩).depTime := by
  have hsorted : tt.Pairwise (fun a b => a.depTime ≤ b.depTime) := by
    rcases resolved with _ | ⟨ss, es⟩
    · rw [load_tt] at h
      exact Option.noConfusion h
    · simp only [load_tt] at h
      rw [Option.some.injEq, Prod.mk.injEq] at h
      obtain ⟨h1, -⟩ := h
      rw [← h1]
      exact sortByDep_sorted _
  intro i j hi hj hij
  exact List.pairwise_iff_get.1 hsorted ⟨i, hi⟩ ⟨j, hj⟩ (Fin.mk_lt_mk.2 hij)

/-- Witness for C5: a two-dispatch expansion comes back sorted. -/
theorem C5_sorted_connections_witness :
    load_tt [("r", [⟨0, 1, -120, 0, ⟨"r", "T", some "p"⟩, none⟩])]
      [("r", [100, 50])] (some (0, 1)) [] false [] 0 1 =
      some ([⟨0, 1, 86330, 86450, ⟨"r", "T", some "p"⟩, some 1⟩,
             ⟨0, 1, 86380, 86500, ⟨"r", "T", some "p"⟩, some 0⟩],
            [(0, [(0, 86380)]), (1, [(0, 86330)])]) ∧
    (([⟨0, 1, 86330, 86450, ⟨"r", "T", some "p"⟩, some 1⟩,
       ⟨0, 1, 86380, 86500, ⟨"r", "T", some "p"⟩, some 0⟩] : List Conn).get
        ⟨0, by decide⟩).depTime ≤
      (([⟨0, 1, 86330, 86450, ⟨"r", "T", some "p"⟩, some 1⟩,
         ⟨0, 1, 86380, 86500, ⟨"r", "T", some "p"⟩, some 0⟩] : List Conn).get
        ⟨1, by decide⟩).depTime := by
  have h : load_tt [("r", [⟨0, 1, -120, 0, ⟨"r", "T", some "p"⟩, none⟩])]
      [("r", [100, 50])] (some (0, 1)) [] false [] 0 1 =
      some ([⟨0, 1, 86330, 86450, ⟨"r", "T", some "p"⟩, some 1⟩,
             ⟨0, 1, 86380, 86500, ⟨"r", "T", some "p"⟩, some 0⟩],
            [(0, [(0, 86380)]), (1, [(0, 86330)])]) := by
    with_unfolding_all rfl
  exact ⟨h, C5_sorted_connections _ _ _ _ _ _ _ _ _ _ h 0 1 (by decide)
    (by decide) (by decide)⟩

/-- The per-route template loop of `gen_timetable` (mtr_pathfinder_v4.py,
lines 581–650), walking the stations backwards from the end of the trip;
the argument pair is `(i, dep)` where `i` is the current Python loop index
(the loop runs `range(len(station_ids) - 1, 0, -1)`).  For index `i` the
entry `(sta_id(station1), sta_id(station2), dep - dur, dep,
[route_id, terminus, platform])` is emitted, with the
`station1 == station2` guard applied only after the `dep` updates.  List
indexing uses defaults: `gen_timetable`'s earlier length checks guarantee
`len(station_ids) - 1 == len(durations)` and per-station `platforms` /
`dwells`, so every access below is in range.  The transfer-time tables are
a parameter: `transfer s2` lists the `(target sta_id, rounded seconds,
label)` entries the exit- and wild-transfer loops produce for the real
station id `s2`. -/
def templateGo (route_id terminus : String) (station_ids real_ids : List Nat)
    (platforms : List String) (durations dwells : List ℚ)
    (avoid_ids : List Nat) (transfer : Nat → List (Nat × Int × String)) :
    Nat → Int → List Conn
  | 0, _ => []
  | i + 1, dep =>
    let station1 := station_ids.getD i 0
    let station2 := station_ids.getD (i + 1) 0
    let rstation1 := real_ids.getD i 0
    let rstation2 := real_ids.getD (i + 1) 0
    let platform := platforms.getD i ""
    let dur := pyRound (durations.getD i 0 / 1000)
    let arr_time := dep
    let dep_time := dep - dur
    let dwell := pyRound (dwells.getD i 0 / 1000)
    let dep2 := dep - dur - dwell
    if station1 = station2 then
      templateGo route_id terminus station_ids real_ids platforms durations
        dwells avoid_ids transfer i dep2
    else if rstation2 ∈ avoid_ids then
      templateGo route_id terminus station_ids real_ids platforms durations
        dwells avoid_ids transfer i dep2
    else
      ((if rstation1 ∉ avoid_ids then
          [⟨station1, station2, dep_time, arr_time,
            ⟨route_id, terminus, some platform⟩, none⟩]
        else []) ++
        (transfer rstation2).map (fun w =>
          ⟨station2, w.1, arr_time, arr_time + w.2.1, ⟨w.2.2, "", none⟩,
            none⟩)) ++
      templateGo route_id terminus station_ids real_ids platforms durations
        dwells avoid_ids transfer i dep2

/-- One route's timetable template: `dep` starts at
`-round(dwells[-1] / 1000)` (0 for an empty dwell list) and the backwards
loop starts at `len(station_ids) - 1`. -/
def gen_template (route_id terminus : String)
    (station_ids real_ids : List Nat) (platforms : List String)
    (durations dwells : List ℚ) (avoid_ids : List Nat)
    (transfer : Nat → List (Nat × Int × String)) : List Conn :=
  templateGo route_id terminus station_ids real_ids platforms durations
    dwells avoid_ids transfer (station_ids.length - 1)
    (-pyRound (dwells.getD (dwells.length - 1) 0 / 1000))

instance : Inhabited Conn := ⟨⟨0, 0, 0, 0, ⟨"", "", none⟩, none⟩⟩

/-- The inner loop of `process_path`'s trip-coalescing pass
(mtr_pathfinder_v4.py, lines 790–800): scan `j = i-1, …, 0`; whenever the
departure station of `result[j]` appears in the current leg's trip map with
a departure no earlier than `result[j]`'s, restart the merged leg at that
station and remember `low_i = j`.  The first argument of the recursion is
the number of indices still to scan. -/
def ppInner (result : List Conn) (trip : List (Nat × Int)) :
    Nat → Conn → Option Nat → Conn × Option Nat
  | 0, leg, low => (leg, low)
  | j + 1, leg, low =>
    let old := result.getD j default
    match assocLookup trip old.dep with
    | some tdep =>
      if tdep ≥ old.depTime then
        ppInner result trip j
          ⟨old.dep, leg.arr, tdep, leg.arrTime, old.detail, leg.trip⟩ (some j)
      else ppInner result trip j leg low
    | none => ppInner result trip j leg low

/-- The outer loop of the trip-coalescing pass (lines 781–802): walk the CSA
legs backwards, skipping indices at or above `low_i`, passing walk legs
through unchanged and coalescing ride legs via `ppInner`; a missing trip
number raises `KeyError` (`trips[str(new_leg[5])]`). -/
def ppOuter (result : List Conn) (trips : List (Nat × List (Nat × Int))) :
    Nat → Nat → List Conn → Except PyErr (List Conn)
  | 0, _, acc => .ok acc
  | i + 1, low, acc =>
    if i ≥ low then ppOuter result trips i low acc
    else
      let leg := result.getD i default
      match leg.trip with
      | none => ppOuter result trips i low (acc ++ [leg])
      | some tn =>
        match assocLookup trips tn with
        | none => .error .keyError
        | some trip =>
          let r := ppInner result trip i leg none
          ppOuter result trips i
            (match r.2 with | some j => j | none => low) (acc ++ [r.1])

/-- `con[4][:2]` of a leg, as compared against the stored `con[4]`. -/
def detailSlice (d : RDetail) : List (Option String) :=
  [some d.name, some d.terminus]

/-- The full `con[4]` stored into `last_detail`. -/
def detailFull (d : RDetail) : List (Option String) :=
  [some d.name, some d.terminus, d.platform]

/-- The second loop of `process_path` (lines 805–813): append a leg when
`con[4][:2] != last_detail or detail is True`, else extend the previous
one.  `last_detail` stores the full three-element `con[4]` while the
comparison uses the two-element slice, so the condition always holds and
every leg is appended. -/
def ppCompress (detail : Bool) (legs : List Conn) : List Conn :=
  (legs.foldl (fun (acc : List Conn × Option (List (Option String))) con =>
    if some (detailSlice con.detail) ≠ acc.2 ∨ detail then
      (acc.1 ++ [con], some (detailFull con.detail))
    else
      match acc.1.getLast? with
      | some l => (acc.1.dropLast ++
          [⟨l.dep, con.arr, l.depTime, con.arrTime, l.detail, l.trip⟩],
          some (detailFull con.detail))
      | none => (acc.1, some (detailFull con.detail))) ([], none)).1

/-- The leg post-processing of `process_path` (mtr_pathfinder_v4.py, lines
777–813): the trip-coalescing pass over the CSA legs, the reversal, and the
detail-merging loop.  Station-name resolution and the human-readable
rendering that follow are not modelled. -/
def processPathLegs (result : List Conn)
    (trips : List (Nat × List (Nat × Int))) (detail : Bool) :
    Except PyErr (List Conn) := do
  let rn ← ppOuter result trips result.length MAX_INT_N []
  .ok (ppCompress detail rn.reverse)

/-- Counterexample for C6: the timetable template is anchored at the END of
the trip (`dep` counts down from `-round(dwells[-1]/1000)`), so a dispatch
entry of 86340 means the trip *arrives* at its last station at 86340.  For
the A–B–C route with 120 s hops, the 86340 dispatch expands to rides
departing 86100 and 86220, both inside the window
`max_time - 86400 < dep < departure_time` for the 86300 query, so the
expansion is empty: the claimed connections (A→B, 86340→86460) and
(B→C, 86460→86580) do not appear, and the CSA cannot reach C. -/
theorem C6_counterexample :
    gen_template "R" "Cid" [0, 1, 2] [10, 11, 12] ["pA", "pB", "pC"]
      [120000, 120000] [0, 0, 0] [] (fun _ => []) =
      [⟨1, 2, -120, 0, ⟨"R", "Cid", some "pB"⟩, none⟩,
       ⟨0, 1, -240, -120, ⟨"R", "Cid", some "pA"⟩, none⟩] ∧
    load_tt [("R", [⟨1, 2, -120, 0, ⟨"R", "Cid", some "pB"⟩, none⟩,
                    ⟨0, 1, -240, -120, ⟨"R", "Cid", some "pA"⟩, none⟩])]
      [("R", [86340])] (some (0, 2)) [] false [] 86300 1 =
      some ([], [(0, [])]) ∧
    computeE 3 [] 0 2 86300 =
      .ok ([86300, MAX_INT, MAX_INT], [MAX_INT_N, MAX_INT_N, MAX_INT_N],
        []) := by
  refine ⟨by with_unfolding_all rfl, by with_unfolding_all rfl,
    by with_unfolding_all rfl⟩

/-- **C6 (amended).** For the midnight scenario of §8 with the template
anchored at the trip end: the A–B–C route (hops 120 s, zero dwell) with a
departure-table entry of 180 — which the midnight rule duplicates to 86580
because `max_time > 86400` — expands, for the REALTIME query at
`departure_time = 86300` with `MAX_HOUR = 1`, to a timetable containing the
ride connections (A→B, dep 86340, arr 86460) and (B→C, dep 86460,
arr 86580); the CSA reaches C with arrival time 86580; and the
trip-coalescing pass merges the two legs into one leg from A to C
(86340 → 86580). -/
theorem C6_midnight_scenario :
    load_tt [("R", gen_template "R" "Cid" [0, 1, 2] [10, 11, 12]
        ["pA", "pB", "pC"] [120000, 120000] [0, 0, 0] [] (fun _ => []))]
      [("R", [180])] (some (0, 2)) [] false [] 86300 1 =
      some ([⟨1, 2, 60, 180, ⟨"R", "Cid", some "pB"⟩, some 0⟩,
             ⟨0, 1, 86340, 86460, ⟨"R", "Cid", some "pA"⟩, some 0⟩,
             ⟨0, 1, 86340, 86460, ⟨"R", "Cid", some "pA"⟩, some 1⟩,
             ⟨1, 2, 86460, 86580, ⟨"R", "Cid", some "pB"⟩, some 1⟩],
            [(0, [(1, 60), (0, 86340)]), (1, [(1, 86460), (0, 86340)])]) ∧
    (⟨0, 1, 86340, 86460, ⟨"R", "Cid", some "pA"⟩, some 0⟩ : Conn) ∈
      [⟨1, 2, 60, 180, ⟨"R", "Cid", some "pB"⟩, some 0⟩,
       ⟨0, 1, 86340, 86460, ⟨"R", "Cid", some "pA"⟩, some 0⟩,
       ⟨0, 1, 86340, 86460, ⟨"R", "Cid", some "pA"⟩, some 1⟩,
       ⟨1, 2, 86460, 86580, ⟨"R", "Cid", some "pB"⟩, some 1⟩] ∧
    (⟨1, 2, 86460, 86580, ⟨"R", "Cid", some "pB"⟩, some 1⟩ : Conn) ∈
      [⟨1, 2, 60, 180, ⟨"R", "Cid", some "pB"⟩, some 0⟩,
       ⟨0, 1, 86340, 86460, ⟨"R", "Cid", some "pA"⟩, some 0⟩,
       ⟨0, 1, 86340, 86460, ⟨"R", "Cid", some "pA"⟩, some 1⟩,
       ⟨1, 2, 86460, 86580, ⟨"R", "Cid", some "pB"⟩, some 1⟩] ∧
    computeE 3 [⟨1, 2, 60, 180, ⟨"R", "Cid", some "pB"⟩, some 0⟩,
                ⟨0, 1, 86340, 86460, ⟨"R", "Cid", some "pA"⟩, some 0⟩,
                ⟨0, 1, 86340, 86460, ⟨"R", "Cid", some "pA"⟩, some 1⟩,
                ⟨1, 2, 86460, 86580, ⟨"R", "Cid", some "pB"⟩, some 1⟩]
      0 2 86300 =
      .ok ([86300, 86460, 86580], [MAX_INT_N, 1, 3],
        [⟨0, 1, 86340, 86460, ⟨"R", "Cid", some "pA"⟩, some 0⟩,
         ⟨1, 2, 86460, 86580, ⟨"R", "Cid", some "pB"⟩, some 1⟩]) ∧
    processPathLegs
      [⟨0, 1, 86340, 86460, ⟨"R", "Cid", some "pA"⟩, some 0⟩,
       ⟨1, 2, 86460, 86580, ⟨"R", "Cid", some "pB"⟩, some 1⟩]
      [(0, [(1, 60), (0, 86340)]), (1, [(1, 86460), (0, 86340)])] false =
      .ok [⟨0, 2, 86340, 86580, ⟨"R", "Cid", some "pA"⟩, some 1⟩] := by
  refine ⟨by with_unfolding_all rfl, by decide, by decide,
    by with_unfolding_all rfl, by with_unfolding_all rfl⟩

/-! ## find_shortest_route of mtr_pathfinder.py (THEORY / WAITING)

The path search itself happens inside networkx, which is not part of this
repository; the spec's description of it (all shortest paths by total
weight, fewest nodes among them, "not found" when no path exists) is
modelled as exhaustive minimisation over simple paths. -/

/-- Modelled from the spec: networkx's Dijkstra on a `MultiDiGraph` uses,
for each ordered pair it traverses, the minimum `weight` among the parallel
edges of that pair. -/
def pairWeightE (G : Graph) (u v : String) : Option ℚ :=
  match gLookup G u v with
  | some es =>
    match es.map (fun e => e.weight) with
    | [] => none
    | w :: ws => some (ws.foldl min w)
  | none => none

/-- Total weight of a node path (0 for a single node, `none` when an edge
is missing). -/
def pathWeight (G : Graph) : List String → Option ℚ
  | [] => none
  | [_] => some 0
  | u :: v :: rest =>
    match pairWeightE G u v, pathWeight G (v :: rest) with
    | some w, some rw => some (w + rw)
    | _, _ => none

/-- The target stations of the multigraph's ordered pairs: every node
reachable by an edge is among them. -/
def gTargets (G : Graph) : List String := (G.map (fun p => p.1.2)).dedup

/-- Depth-first enumeration of the simple paths out of `u` that avoid
`visited`, with explicit fuel. -/
def simplePathsGo (G : Graph) (nodes : List String) :
    Nat → String → List String → List (List String)
  | 0, _, _ => []
  | fuel + 1, u, visited =>
    [[u]] ++
      ((nodes.filter (fun v => gHasEdge G u v && decide (v ∉ u :: visited))).map
        (fun v => (simplePathsGo G nodes fuel v (u :: visited)).map
          (fun p => u :: p))).flatten

/-- The three result shapes of `find_shortest_route`: the `None` row, the
`False` row, and a distance with its chosen path. -/
inductive FSRResult where
  | unresolved : FSRResult
  | notFound : FSRResult
  | found (dist : ℚ) (path : List String) : FSRResult
deriving DecidableEq, Repr

/-- A directed simple path from `s` to `t` in the multigraph. -/
def SimplePath (G : Graph) (s t : String) (p : List String) : Prop :=
  p.head? = some s ∧ p.getLast? = some t ∧
  List.Chain' (fun u v => gHasEdge G u v = true) p ∧ p.Nodup

/-- Modelled from the spec: `find_shortest_route` (mtr_pathfinder.py, lines
1037–1066) returns the `None` row when a name fails to resolve or both
names resolve to the same station, and otherwise delegates to networkx:
`all_shortest_paths` by total weight sorted by node count with the first
taken, and `shortest_path_length`; `NetworkXNoPath` / `NodeNotFound`
become the `False` row.  The networkx search is modelled as exhaustive
minimisation over the simple paths from `s` to `t`, with first-wins
tie-breaking as in Python's stable `sorted(..., key=len)`. -/
def find_shortest_route (G : Graph) (resolved : Option (String × String)) :
    FSRResult :=
  match resolved with
  | none => .unresolved
  | some (s, t) =>
    if s = t then .unresolved
    else
      match ((simplePathsGo G (gTargets G) ((gTargets G).length + 1) s
          []).filter (fun p => decide (p.getLast? = some t))).filterMap
          (fun p => (pathWeight G p).map (fun w => (w, p))) with
      | [] => .notFound
      | c :: cs =>
        match (c :: cs).filter (fun x =>
            decide (x.1 = (cs.foldl (fun acc x =>
              if x.1 < acc.1 then x else acc) c).1)) with
        | [] => .notFound
        | m :: ms =>
          .found ((cs.foldl (fun acc x => if x.1 < acc.1 then x else acc) c).1)
            ((ms.foldl (fun acc x =>
              if x.2.length < acc.2.length then x else acc) m).2)

/-- Everything the depth-first enumeration returns is a simple path out of
`u` avoiding `visited`. -/
theorem simplePathsGo_sound (G : Graph) (nodes : List String) :
    ∀ (fuel : Nat) (u : String) (visited : List String) (p : List String),
    u ∉ visited → p ∈ simplePathsGo G nodes fuel u visited →
    p.head? = some u ∧ List.Chain' (fun a b => gHasEdge G a b = true) p ∧
      p.Nodup ∧ ∀ x ∈ p, x ∉ visited := by
  intro fuel
  induction fuel with
  | zero =>
    intro u visited p _ hp
    exact absurd hp (List.not_mem_nil p)
  | succ f ih =>
    intro u visited p hu hp
    rw [simplePathsGo] at hp
    rcases List.mem_append.1 hp with h1 | h2
    · have hpu : p = [u] := List.mem_singleton.1 h1
      subst hpu
      refine ⟨rfl, List.chain'_singleton u, List.nodup_singleton u, ?_⟩
      intro x hx
      rw [List.mem_singleton.1 hx]
      exact hu
    · rw [List.mem_flatten] at h2
      obtain ⟨Lp, hLp, hpLp⟩ := h2
      rw [List.mem_map] at hLp
      obtain ⟨v, hv, hLpv⟩ := hLp
      subst hLpv
      rw [List.mem_map] at hpLp
      obtain ⟨q, hq, hqp⟩ := hpLp
      subst hqp
      obtain ⟨hvfil, hvcond⟩ := List.mem_filter.1 hv
      rw [Bool.and_eq_true] at hvcond
      obtain ⟨hedge, hvnot⟩ := hvcond
      have hvnot' : v ∉ u :: visited := by simpa using hvnot
      obtain ⟨hq1, hq2, hq3, hq4⟩ := ih v (u :: visited) q hvnot' hq
      refine ⟨rfl, ?_, ?_, ?_⟩
      · cases q with
        | nil => exact List.chain'_singleton u
        | cons a rest =>
          have hav : a = v := by simpa using hq1
          subst hav
          exact List.chain'_cons.2 ⟨hedge, hq2⟩
      · refine List.nodup_cons.2 ⟨?_, hq3⟩
        intro hmem
        exact (hq4 u hmem) (List.mem_cons_self u visited)
      · intro x hx
        rcases List.mem_cons.1 hx with rfl | hx'
        · exact hu
        · intro hxv
          exact (hq4 x hx') (List.mem_cons_of_mem u hxv)

/-- Every simple path whose interior fits in the fuel is enumerated. -/
theorem simplePathsGo_complete (G : Graph) (nodes : List String) :
    ∀ (fuel : Nat) (rest : List String) (u : String) (visited : List String),
    rest.length ≤ fuel →
    List.Chain' (fun a b => gHasEdge G a b = true) (u :: rest) →
    (u :: rest).Nodup →
    (∀ x ∈ rest, x ∉ visited) →
    (∀ x ∈ rest, x ∈ nodes) →
    (u :: rest) ∈ simplePathsGo G nodes (fuel + 1) u visited := by
  intro fuel
  induction fuel with
  | zero =>
    intro rest u visited hlen _ _ _ _
    have hr : rest = [] := List.eq_nil_of_length_eq_zero
      (Nat.le_zero.1 hlen)
    subst hr
    rw [simplePathsGo]
    exact List.mem_append_left _ (List.mem_singleton.2 rfl)
  | succ f ih =>
    intro rest u visited hlen hchain hnodup hvis hnodes
    cases rest with
    | nil =>
      rw [simplePathsGo]
      exact List.mem_append_left _ (List.mem_singleton.2 rfl)
    | cons v rest' =>
      obtain ⟨hedge, hchain'⟩ := List.chain'_cons.1 hchain
      obtain ⟨hunotr, hnodup'⟩ := List.nodup_cons.1 hnodup
      rw [simplePathsGo]
      refine List.mem_append_right _ ?_
      rw [List.mem_flatten]
      refine ⟨(simplePathsGo G nodes (f + 1) v (u :: visited)).map
        (fun p => u :: p), ?_, ?_⟩
      · rw [List.mem_map]
        refine ⟨v, ?_, rfl⟩
        rw [List.mem_filter]
        refine ⟨hnodes v (List.mem_cons_self v rest'), ?_⟩
        rw [Bool.and_eq_true]
        refine ⟨hedge, ?_⟩
        have hvu : v ≠ u := by
          intro h
          exact hunotr (h ▸ List.mem_cons_self v rest')
        have hvv : v ∉ visited := hvis v (List.mem_cons_self v rest')
        simp [hvu, hvv]
      · rw [List.mem_map]
        refine ⟨v :: rest', ?_, rfl⟩
        refine ih rest' v (u :: visited) (Nat.succ_le_succ_iff.1 hlen)
          hchain' hnodup' ?_ ?_
        · intro x hx
          intro hmem
          rcases List.mem_cons.1 hmem with rfl | hxv
          · exact hunotr (List.mem_cons_of_mem v hx)
          · exact hvis x (List.mem_cons_of_mem v hx) hxv
        · intro x hx
          exact hnodes x (List.mem_cons_of_mem v hx)

/-- An existing edge's target is one of the graph's listed targets. -/
theorem gHasEdge_target {G : Graph} {u v : String}
    (h : gHasEdge G u v = true) : v ∈ gTargets G := by
  rw [gHasEdge] at h
  rcases hl : gLookup G u v with _ | es
  · rw [hl] at h
    exact Bool.noConfusion h
  · rw [gLookup] at hl
    rcases hf : G.find? (fun p => decide (p.1 = (u, v))) with _ | pr
    · rw [hf] at hl
      exact Option.noConfusion hl
    · have hmem := List.mem_of_find?_eq_some hf
      have hpr := List.find?_some hf
      rw [decide_eq_true_eq] at hpr
      rw [gTargets, List.mem_dedup, List.mem_map]
      exact ⟨pr, hmem, by rw [hpr]⟩

/-- Along a chain of edges, every node after the head is an edge target. -/
theorem chain_mem_targets {G : Graph} : ∀ (u : String) (rest : List String),
    List.Chain' (fun a b => gHasEdge G a b = true) (u :: rest) →
    ∀ x ∈ rest, x ∈ gTargets G := by
  intro u rest
  induction rest generalizing u with
  | nil =>
    intro _ x hx
    exact absurd hx (List.not_mem_nil x)
  | cons v rest' ih =>
    intro hchain x hx
    obtain ⟨hedge, hchain'⟩ := List.chain'_cons.1 hchain
    rcases List.mem_cons.1 hx with rfl | hx'
    · exact gHasEdge_target hedge
    · exact ih v hchain' x hx'

/-- Every edge-chain has a defined total weight. -/
theorem pathWeight_isSome (G : Graph) : ∀ (p : List String),
    List.Chain' (fun a b => gHasEdge G a b = true) p → p ≠ [] →
    ∃ w, pathWeight G p = some w := by
  intro p
  induction p with
  | nil =>
    intro _ h
    exact absurd rfl h
  | cons u rest ih =>
    intro hchain _
    cases rest with
    | nil => exact ⟨0, rfl⟩
    | cons v rest' =>
      obtain ⟨hedge, hchain'⟩ := List.chain'_cons.1 hchain
      obtain ⟨rw_, hrw⟩ := ih hchain' (List.cons_ne_nil v rest')
      have hpw : ∃ w0, pairWeightE G u v = some w0 := by
        rw [gHasEdge] at hedge
        rcases hl : gLookup G u v with _ | es
        · rw [hl] at hedge
          exact Bool.noConfusion hedge
        · rcases hes : es with _ | ⟨e, es'⟩
          · rw [hl, hes] at hedge
            simp [List.isEmpty] at hedge
          · refine ⟨(es'.map (fun e => e.weight)).foldl min e.weight, ?_⟩
            rw [pairWeightE, hl, hes]
            rfl
      obtain ⟨w0, hw0⟩ := hpw
      refine ⟨w0 + rw_, ?_⟩
      simp only [pathWeight, hw0, hrw]

/-- The first-wins minimising fold lands in the candidate list. -/
theorem foldl_minBy_mem {α β : Type} [LinearOrder β] (k : α → β) :
    ∀ (l : List α) (c : α),
    (l.foldl (fun acc x => if k x < k acc then x else acc) c) ∈ c :: l := by
  intro l
  induction l with
  | nil =>
    intro c
    exact List.mem_singleton.2 rfl
  | cons b rest ih =>
    intro c
    rw [List.foldl_cons]
    rcases List.mem_cons.1 (ih (if k b < k c then b else c)) with h | h
    · rw [h]
      split_ifs
      · exact List.mem_cons_of_mem c (List.mem_cons_self b rest)
      · exact List.mem_cons_self c (b :: rest)
    · exact List.mem_cons_of_mem c (List.mem_cons_of_mem b h)

/-- The first-wins minimising fold minimises the key. -/
theorem foldl_minBy_le {α β : Type} [LinearOrder β] (k : α → β) :
    ∀ (l : List α) (c : α) (x : α), x ∈ c :: l →
    k (l.foldl (fun acc x => if k x < k acc then x else acc) c) ≤ k x := by
  intro l
  induction l with
  | nil =>
    intro c x hx
    rw [List.mem_singleton.1 hx]
    exact le_refl _
  | cons b rest ih =>
    intro c x hx
    rw [List.foldl_cons]
    have hbase : k (rest.foldl (fun acc x => if k x < k acc then x else acc)
        (if k b < k c then b else c)) ≤ k (if k b < k c then b else c) :=
      ih _ _ (List.mem_cons_self _ rest)
    rcases List.mem_cons.1 hx with heq | hx'
    · rw [heq]
      refine le_trans hbase ?_
      split_ifs with h
      · exact le_of_lt h
      · exact le_refl _
    · rcases List.mem_cons.1 hx' with heq2 | hx''
      · rw [heq2]
        refine le_trans hbase ?_
        split_ifs with h
        · exact le_refl _
        · exact not_lt.1 h
      · exact ih _ x (List.mem_cons_of_mem _ hx'')

/-- Soundness of the candidate list of `find_shortest_route`: every entry
is a weighted simple path from `s` to `t`. -/
theorem fsr_cands_sound (G : Graph) (s t : String) (wp : ℚ × List String)
    (h : wp ∈ ((simplePathsGo G (gTargets G) ((gTargets G).length + 1) s
        []).filter (fun p => decide (p.getLast? = some t))).filterMap
        (fun p => (pathWeight G p).map (fun w => (w, p)))) :
    SimplePath G s t wp.2 ∧ pathWeight G wp.2 = some wp.1 := by
  rw [List.mem_filterMap] at h
  obtain ⟨p, hp, hmap⟩ := h
  rw [Option.map_eq_some'] at hmap
  obtain ⟨w, hw, hwp⟩ := hmap
  obtain ⟨hpmem, hplast⟩ := List.mem_filter.1 hp
  rw [decide_eq_true_eq] at hplast
  obtain ⟨hhead, hchain, hnodup, -⟩ := simplePathsGo_sound G (gTargets G) _
    s [] p (List.not_mem_nil s) hpmem
  subst hwp
  exact ⟨⟨hhead, hplast, hchain, hnodup⟩, hw⟩

/-- Completeness of the candidate list: every weighted simple path from
`s` to `t` appears. -/
theorem fsr_cands_complete (G : Graph) (s t : String) (q : List String)
    (wq : ℚ) (hq : SimplePath G s t q) (hw : pathWeight G q = some wq) :
    (wq, q) ∈ ((simplePathsGo G (gTargets G) ((gTargets G).length + 1) s
        []).filter (fun p => decide (p.getLast? = some t))).filterMap
        (fun p => (pathWeight G p).map (fun w => (w, p))) := by
  obtain ⟨hhead, hlast, hchain, hnodup⟩ := hq
  cases q with
  | nil => exact Option.noConfusion hhead
  | cons u rest =>
    have hus : u = s := by simpa using hhead
    subst hus
    have hsub : ∀ x ∈ rest, x ∈ gTargets G := chain_mem_targets u rest hchain
    have hlen : rest.length ≤ (gTargets G).length := by
      have hnd : rest.Nodup := (List.nodup_cons.1 hnodup).2
      exact (List.subperm_of_subset hnd hsub).length_le
    rw [List.mem_filterMap]
    refine ⟨u :: rest, ?_, ?_⟩
    · rw [List.mem_filter]
      refine ⟨?_, by rw [decide_eq_true_eq]; exact hlast⟩
      exact simplePathsGo_complete G (gTargets G) ((gTargets G).length) rest
        u [] hlen hchain hnodup (fun x _ => List.not_mem_nil x) hsub
    · rw [hw]
      rfl

/-- **C2.** For a built multigraph and distinct resolvable start and end
stations: when `find_shortest_route` returns a distance and a path, the
path is a simple path from start to end, the distance is its total weight
and equals the minimum total weight over all directed simple paths, and
the returned path has the fewest nodes among the minimum-weight paths;
whenever some path exists a result is returned; an unresolvable pair or
equal stations give the `None` row. -/
theorem C2_shortest_route (G : Graph) (s t : String) (hst : s ≠ t) :
    (∀ w p, find_shortest_route G (some (s, t)) = .found w p →
      SimplePath G s t p ∧ pathWeight G p = some w ∧
      ∀ q wq, SimplePath G s t q → pathWeight G q = some wq →
        w ≤ wq ∧ (wq = w → p.length ≤ q.length)) ∧
    ((∃ q, SimplePath G s t q) →
      ∃ w p, find_shortest_route G (some (s, t)) = .found w p) ∧
    find_shortest_route G none = .unresolved ∧
    find_shortest_route G (some (s, s)) = .unresolved := by
  refine ⟨?_, ?_, rfl, by simp [find_shortest_route]⟩
  · intro w p hfound
    rcases hL : ((simplePathsGo G (gTargets G) ((gTargets G).length + 1) s
        []).filter (fun p => decide (p.getLast? = some t))).filterMap
        (fun p => (pathWeight G p).map (fun w => (w, p))) with _ | ⟨c, cs⟩
    · simp only [find_shortest_route, hL, if_neg hst] at hfound
      exact FSRResult.noConfusion hfound
    · simp only [find_shortest_route, hL, if_neg hst] at hfound
      rcases hF : (c :: cs).filter (fun x => decide (x.1 =
          (cs.foldl (fun acc x => if x.1 < acc.1 then x else acc) c).1))
        with _ | ⟨m, ms⟩
      · simp only [hF] at hfound
        exact FSRResult.noConfusion hfound
      · simp only [hF] at hfound
        rw [FSRResult.found.injEq] at hfound
        obtain ⟨hw, hp⟩ := hfound
        have hchosen_mem : (ms.foldl (fun acc x =>
            if x.2.length < acc.2.length then x else acc) m) ∈ m :: ms :=
          foldl_minBy_mem (fun x => x.2.length) ms m
        have hchosen_filter : (ms.foldl (fun acc x =>
            if x.2.length < acc.2.length then x else acc) m) ∈
            (c :: cs).filter (fun x => decide (x.1 =
              (cs.foldl (fun acc x => if x.1 < acc.1 then x else acc) c).1)) := by
          rw [hF]
          exact hchosen_mem
        obtain ⟨hcL, hckey⟩ := List.mem_filter.1 hchosen_filter
        rw [decide_eq_true_eq] at hckey
        have hsound := fsr_cands_sound G s t _ (hL ▸ hcL)
        refine ⟨hp ▸ hsound.1, ?_, ?_⟩
        · rw [← hp, hsound.2, hckey, hw]
        · intro q wq hq hwq
          have hqmem := fsr_cands_complete G s t q wq hq hwq
          rw [hL] at hqmem
          have hbest := foldl_minBy_le (fun x => x.1) cs c (wq, q) hqmem
          constructor
          · rw [← hw]
            exact hbest
          · intro hwq_eq
            have hqfil : (wq, q) ∈ (c :: cs).filter (fun x => decide (x.1 =
                (cs.foldl (fun acc x => if x.1 < acc.1 then x else acc) c).1)) := by
              rw [List.mem_filter]
              refine ⟨hqmem, ?_⟩
              rw [decide_eq_true_eq]
              rw [hwq_eq, ← hw]
            rw [hF] at hqfil
            have hlen := foldl_minBy_le (fun x => x.2.length) ms m (wq, q) hqfil
            rw [← hp]
            exact hlen
  · intro hex
    obtain ⟨q, hq⟩ := hex
    obtain ⟨wq, hwq⟩ := pathWeight_isSome G q hq.2.2.1 (by
      intro hnil
      rw [hnil] at hq
      exact Option.noConfusion hq.1)
    have hqmem := fsr_cands_complete G s t q wq hq hwq
    rcases hL : ((simplePathsGo G (gTargets G) ((gTargets G).length + 1) s
        []).filter (fun p => decide (p.getLast? = some t))).filterMap
        (fun p => (pathWeight G p).map (fun w => (w, p))) with _ | ⟨c, cs⟩
    · rw [hL] at hqmem
      exact absurd hqmem (List.not_mem_nil _)
    · have hbmem : (cs.foldl (fun acc x => if x.1 < acc.1 then x else acc) c) ∈
          c :: cs := foldl_minBy_mem (fun x => x.1) cs c
      have hbfil : (cs.foldl (fun acc x => if x.1 < acc.1 then x else acc) c) ∈
          (c :: cs).filter (fun x => decide (x.1 =
            (cs.foldl (fun acc x => if x.1 < acc.1 then x else acc) c).1)) := by
        rw [List.mem_filter]
        exact ⟨hbmem, by rw [decide_eq_true_eq]⟩
      rcases hF : (c :: cs).filter (fun x => decide (x.1 =
          (cs.foldl (fun acc x => if x.1 < acc.1 then x else acc) c).1))
        with _ | ⟨m, ms⟩
      · rw [hF] at hbfil
        exact absurd hbfil (List.not_mem_nil _)
      · exact ⟨(cs.foldl (fun acc x => if x.1 < acc.1 then x else acc) c).1,
          (ms.foldl (fun acc x =>
            if x.2.length < acc.2.length then x else acc) m).2,
          by simp only [find_shortest_route, hL, if_neg hst, hF]⟩

/-- Witness for C2: on a graph where the two-hop route A→C→B (total 2)
beats the direct edge A→B (weight 5), the search returns the minimum-weight
path, and the theorem certifies it. -/
theorem C2_shortest_route_witness :
    find_shortest_route [(("A", "B"), [⟨0, 5, Label.single "r1", 0⟩]),
        (("A", "C"), [⟨0, 1, Label.single "r2", 0⟩]),
        (("C", "B"), [⟨0, 1, Label.single "r2", 0⟩])] (some ("A", "B")) =
      .found 2 ["A", "C", "B"] ∧
    SimplePath [(("A", "B"), [⟨0, 5, Label.single "r1", 0⟩]),
        (("A", "C"), [⟨0, 1, Label.single "r2", 0⟩]),
        (("C", "B"), [⟨0, 1, Label.single "r2", 0⟩])] "A" "B"
      ["A", "C", "B"] ∧
    pathWeight [(("A", "B"), [⟨0, 5, Label.single "r1", 0⟩]),
        (("A", "C"), [⟨0, 1, Label.single "r2", 0⟩]),
        (("C", "B"), [⟨0, 1, Label.single "r2", 0⟩])] ["A", "C", "B"] =
      some 2 := by
  have h : find_shortest_route [(("A", "B"), [⟨0, 5, Label.single "r1", 0⟩]),
      (("A", "C"), [⟨0, 1, Label.single "r2", 0⟩]),
      (("C", "B"), [⟨0, 1, Label.single "r2", 0⟩])] (some ("A", "B")) =
      .found 2 ["A", "C", "B"] := by
    with_unfolding_all rfl
  obtain ⟨h1, h2, -⟩ := (C2_shortest_route
    [(("A", "B"), [⟨0, 5, Label.single "r1", 0⟩]),
     (("A", "C"), [⟨0, 1, Label.single "r2", 0⟩]),
     (("C", "B"), [⟨0, 1, Label.single "r2", 0⟩])] "A" "B"
    (by decide)).1 2 ["A", "C", "B"] h
  exact ⟨h, h1, h2⟩
